import Mathlib

/-!
Verification of the MuSync track reconciliation and transfer pipeline.

This file gives a shallow embedding, in Lean 4, of the core algorithmic parts
of the repository:

* `app/domain/normalization.py` — string canonicalization and track identity keys;
* `app/application/idempotency.py` — order-independent snapshot hashing;
* `app/application/matching.py`   — candidate selection and match statistics;
* `app/application/pipeline.py`   — batch processing with retry/backoff,
  fresh-start and resume-from-checkpoint transfer orchestration.

Modelling conventions:

* Python `float` confidence values become `ℚ` (the code only ever compares and
  copies them, so exact rationals are a faithful model of the comparisons).
* Python exceptions become `Except` values; provider behaviour is modelled by
  explicit deterministic functions plus, for the batch-write operation, a
  script (list) of per-call outcomes.
* The Unicode primitives used by `normalization.py` (`unicodedata.normalize("NFKD", ·)`,
  combining-class lookup, `str.lower`, the `re` word/space character classes)
  are external library tables; they are abstracted as a `CharTable` of
  per-character functions.  Facts about the real tables that proofs need are
  collected in `CharTable.Lawful`.
* Side effects that the claims mention (provider writes, sleeps, checkpoint
  saves) are recorded in an explicit event trace.
-/

/-! ## Lexicographic string order (Python `str` comparison / `list.sort` order) -/

/-- Lexicographic `≤` on character lists by code point, matching Python's
string comparison. -/
def charListLe : List Char → List Char → Bool
  | [], _ => true
  | _ :: _, [] => false
  | a :: as, b :: bs =>
    if a.toNat < b.toNat then true
    else if b.toNat < a.toNat then false
    else charListLe as bs

/-- Lexicographic `≤` on strings by code point. -/
def strLe (a b : String) : Bool := charListLe a.data b.data

/-- The proposition form of `strLe`, used as the sorting relation. -/
def strLeR (a b : String) : Prop := strLe a b = true

instance : DecidableRel strLeR := fun a b => instDecidableEqBool (strLe a b) true

/-- Ascending lexicographic sort of a list of strings; models Python's
`list.sort()` on `str` values. -/
def sortStrings (l : List String) : List String := l.insertionSort strLeR

/-! ## Character table: abstraction of the Unicode primitives -/

/-- Per-character behaviour of the external Unicode library functions used by
`normalization.py`:

* `decompose c` — the full compatibility (NFKD) decomposition of `c`
  (`unicodedata.normalize("NFKD", ·)` acts per character up to canonical
  reordering of combining marks, and reordering only permutes combining
  characters, all of which are immediately discarded by `_strip_diacritics`);
* `combining c` — whether `c` is a combining character (`unicodedata.combining(c) != 0`);
* `lower c` — the full lowercase mapping of `c` (`str.lower`, which may expand
  one character to several);
* `isAlnum c` — whether `c` is alphanumeric, so that `c` matches the `re`
  class `\w` together with the underscore;
* `isSpace c` — whether `c` matches the `re` class `\s` / `str.strip`. -/
structure CharTable where
  decompose : Char → List Char
  combining : Char → Bool
  lower : Char → List Char
  isAlnum : Char → Bool
  isSpace : Char → Bool

/-- A character is a word character (`\w`) iff it is alphanumeric or `_`. -/
def isWordC (T : CharTable) (c : Char) : Bool := T.isAlnum c || c == '_'

/-- `_strip_diacritics`: NFKD-decompose, then drop combining characters. -/
def stripDiacritics (T : CharTable) (l : List Char) : List Char :=
  (l.flatMap T.decompose).filter (fun c => !T.combining c)

/-- `str.lower` applied to a whole string (character-wise full lowering). -/
def lowerChars (T : CharTable) (l : List Char) : List Char := l.flatMap T.lower

/-- `value.replace("&", " and ")`. -/
def ampExpand (l : List Char) : List Char :=
  l.flatMap (fun c => if c = '&' then " and ".data else [c])

/-- ASCII-case-insensitive character test used by the `re.IGNORECASE` pattern
`\b(feat\.?|ft\.)\b`; the pattern letters have no further Unicode case
variants. -/
def eqi (c lo up : Char) : Bool := c == lo || c == up

/-- One left-to-right substitution pass of `_FEAT_PATTERN.sub(" ", value)`,
the pattern being `\b(feat\.?|ft\.)\b` with `re.IGNORECASE`.  `prevWord` says
whether the character immediately to the left is a word character, which
decides the leading word boundary.  The alternatives are tried in regex
order (`feat.` greedily before `feat`, then `ft.`), and each trailing `\b`
is evaluated against the original neighbour characters.  The dot is a
non-word character for every faithful table (`Lawful` below includes no such
field because the embedding only relies on it through `isWordC` tests on the
following character). -/
def featSubAux (T : CharTable) : Nat → Bool → List Char → List Char
  | 0, _, l => l
  | _ + 1, _, [] => []
  | fuel + 1, prevWord, c :: rest =>
    if prevWord || !(eqi c 'f' 'F') then c :: featSubAux T fuel (isWordC T c) rest
    else
      match rest with
      | c1 :: c2 :: c3 :: rest3 =>
        if eqi c1 'e' 'E' && eqi c2 'a' 'A' && eqi c3 't' 'T' then
          match rest3 with
          | '.' :: d :: rest4 =>
            if isWordC T d then ' ' :: featSubAux T fuel false (d :: rest4)
            else ' ' :: featSubAux T fuel true ('.' :: d :: rest4)
          | [] => [' ']
          | d :: rest4 =>
            if isWordC T d then c :: featSubAux T fuel (isWordC T c) (c1 :: c2 :: c3 :: d :: rest4)
            else ' ' :: featSubAux T fuel true (d :: rest4)
        else if eqi c1 't' 'T' && c2 = '.' && isWordC T c3 then
          ' ' :: featSubAux T fuel false (c3 :: rest3)
        else c :: featSubAux T fuel (isWordC T c) (c1 :: c2 :: c3 :: rest3)
      | _ => c :: featSubAux T fuel (isWordC T c) rest

/-- `_FEAT_PATTERN.sub(" ", value)`; each scanning step consumes at least one
character, so fuel `l.length` always suffices. -/
def featSub (T : CharTable) (l : List Char) : List Char :=
  featSubAux T l.length false l

/-- Whether a character is one of the opening brackets `(`, `[`, `{`. -/
def isOpenBr (c : Char) : Bool := c == '(' || c == '[' || c == '\x7b'

/-- Whether a character is one of the closing brackets `)`, `]`, `}`. -/
def isCloseBr (c : Char) : Bool := c == ')' || c == ']' || c == '\x7d'

/-- Try to match `_PARENS_CONTENT_PATTERN` = `\s*[([{][^)\]}]*[)\]}]\s*` at the
head of `l`; on success return the characters following the match. -/
def tryParens (T : CharTable) (l : List Char) : Option (List Char) :=
  match l.dropWhile T.isSpace with
  | c :: rest =>
    if isOpenBr c then
      match rest.dropWhile (fun d => !isCloseBr d) with
      | d :: rest2 => if isCloseBr d then some (rest2.dropWhile T.isSpace) else none
      | [] => none
    else none
  | [] => none

/-- One substitution pass `_PARENS_CONTENT_PATTERN.sub(" ", value)`: replace
every (leftmost-first) match with a single space.  Every match consumes at
least two characters, so fuel `l.length` always suffices. -/
def parensSub (T : CharTable) : Nat → List Char → List Char
  | 0, l => l
  | _ + 1, [] => []
  | fuel + 1, c :: rest =>
    match tryParens T (c :: rest) with
    | some rest2 => ' ' :: parensSub T fuel rest2
    | none => c :: parensSub T fuel rest

/-- The `while True` loop of `normalize_string`: re-apply `parensSub` until a
fixpoint is reached.  Each productive pass strictly shortens the list, so
fuel `l.length + 1` always suffices. -/
def parensLoop (T : CharTable) : Nat → List Char → List Char
  | 0, l => l
  | fuel + 1, l =>
    let l2 := parensSub T l.length l
    if l2 = l then l else parensLoop T fuel l2

/-- `_PARENS_CHARS_PATTERN.sub(" ", value)`: leftover bracket characters
become spaces. -/
def bracketsToSpace (l : List Char) : List Char :=
  l.map (fun c => if isOpenBr c || isCloseBr c then ' ' else c)

/-- `_NON_WORD_SPACE_PATTERN.sub(" ", value)`: characters matching `[^\w\s]`
become spaces. -/
def nonWordToSpace (T : CharTable) (l : List Char) : List Char :=
  l.map (fun c => if isWordC T c || T.isSpace c then c else ' ')

/-- `value.replace("_", " ")`. -/
def underscoreToSpace (l : List Char) : List Char :=
  l.map (fun c => if c = '_' then ' ' else c)

/-- `_MULTISPACE_PATTERN.sub(" ", value)`: replace each maximal run of `\s`
characters by a single space character. -/
def squeezeSp (T : CharTable) : List Char → List Char
  | [] => []
  | c :: rest =>
    match rest with
    | [] => [if T.isSpace c then ' ' else c]
    | d :: _ =>
      if T.isSpace c && T.isSpace d then squeezeSp T rest
      else (if T.isSpace c then ' ' else c) :: squeezeSp T rest

/-- The right half of `str.strip()`: drop trailing `\s` characters. -/
def rstripSp (T : CharTable) : List Char → List Char
  | [] => []
  | c :: rest =>
    let r := rstripSp T rest
    if r = [] && T.isSpace c then [] else c :: r

/-- `normalize_string` from `app/domain/normalization.py`, stage by stage:
strip diacritics, lowercase, expand `&`, remove `feat`/`ft.` markers, remove
bracketed content to a fixpoint, clear leftover brackets, clear remaining
punctuation, clear underscores, collapse whitespace and trim. -/
def normalizeChars (T : CharTable) (l : List Char) : List Char :=
  let v1 := stripDiacritics T l
  let v2 := lowerChars T v1
  let v3 := ampExpand v2
  let v4 := featSub T v3
  let v5 := parensLoop T (v4.length + 1) v4
  let v6 := bracketsToSpace v5
  let v7 := nonWordToSpace T v6
  let v8 := underscoreToSpace v7
  rstripSp T ((squeezeSp T v8).dropWhile T.isSpace)

/-- `normalize_string(value)` (the `value or ""` guard is vacuous for a typed
string argument). -/
def normalize_string (T : CharTable) (s : String) : String :=
  ⟨normalizeChars T s.data⟩

/-- A concrete character table used to evaluate the embedding on concrete
inputs: no decompositions, no combining characters, identity lowering, and
the core ASCII alphanumeric/whitespace classes.  On the lowercase ASCII
inputs used in witnesses below it coincides with the real Unicode tables. -/
def asciiTable : CharTable where
  decompose := fun c => [c]
  combining := fun _ => false
  lower := fun c => [c]
  isAlnum := fun c => c.isAlphanum
  isSpace := fun c => c.isWhitespace

/-- Facts about the real Unicode tables that the idempotence proof uses.
`lit_stable` instantiates the general facts at the three letters inserted by
the `&` expansion. -/
structure CharTable.Lawful (T : CharTable) : Prop where
  space_decompose : T.decompose ' ' = [' ']
  space_combining : T.combining ' ' = false
  space_lower : T.lower ' ' = [' ']
  space_isSpace : T.isSpace ' ' = true
  decompose_atomic : ∀ c d, d ∈ T.decompose c → T.combining d = false → T.decompose d = [d]
  lower_fixed : ∀ c d, d ∈ T.lower c → T.lower d = [d]
  lower_alnum_stable : ∀ c d, d ∈ T.lower c → T.isAlnum d = true →
    T.decompose d = [d] ∧ T.combining d = false
  lit_stable : ∀ c, c = 'a' ∨ c = 'n' ∨ c = 'd' →
    T.decompose c = [c] ∧ T.combining c = false ∧ T.lower c = [c]

/-! ## Artist normalization and identity keys (`app/domain/normalization.py`) -/

/-- The `_strip_leading_articles` helper of `normalize_artists_joined`: drop a
leading `"the "`. -/
def stripLeadingThe (name : String) : String :=
  match name.data with
  | 't' :: 'h' :: 'e' :: ' ' :: rest => ⟨rest⟩
  | _ => name

/-- `normalize_artists_joined(artists)`: normalize each non-empty artist name,
strip a leading article, sort, join the non-empty results with spaces. -/
def normalize_artists_joined (T : CharTable) (artists : List String) : String :=
  let normalized :=
    sortStrings ((artists.filter (fun a => !(a == ""))).map
      (fun a => stripLeadingThe (normalize_string T a)))
  String.intercalate " " (normalized.filter (fun n => !(n == "")))

/-- Python's `round` on an exact rational: round half to even.  The source
divides two machine integers as floats; the model uses the exact quotient. -/
def pyRound (q : ℚ) : ℤ :=
  let f := q.floor
  let r := q - (f : ℚ)
  if r < mkRat 1 2 then f
  else if mkRat 1 2 < r then f + 1
  else if f % 2 = 0 then f else f + 1

/-- `round_duration_ms(duration_ms, tolerance_ms)`. -/
def round_duration_ms (durationMs toleranceMs : ℤ) : ℤ :=
  if durationMs < 0 then 0
  else
    let bucket := max 1 toleranceMs
    pyRound ((durationMs : ℚ) / (bucket : ℚ)) * bucket

/-! ## Domain entities (`app/domain/entities.py`) -/

/-- Domain entity `Track`.  The `__post_init__` guard that replaces a `None`
artists value by `[]` is built into the typed field. -/
structure Track where
  id : Option String
  source_id : String
  title : String
  artists : List String
  duration_ms : ℤ
  isrc : Option String
  album : Option String
  uri : Option String
deriving DecidableEq

/-- Domain entity `Candidate`. -/
structure Candidate where
  uri : String
  confidence : ℚ
  reason : String
  title : Option String
  artists : Option (List String)
  album : Option String
  duration_ms : Option ℤ
  rank : Option ℤ
  album_type : Option String
deriving DecidableEq

/-- Result record of the matcher. -/
structure MatchResult where
  uri : Option String
  confidence : ℚ
  reason : String
deriving DecidableEq

/-- Domain entity `AddResult`. -/
structure AddResult where
  added : Nat
  duplicates : Nat
  errors : Nat
deriving DecidableEq

/-- Domain entity `Playlist`. -/
structure Playlist where
  id : String
  name : String
  owner_id : String
  is_owned : Bool
  track_count : Nat
deriving DecidableEq

/-- Python truthiness of an optional string: present and non-empty. -/
def optTruthy (o : Option String) : Bool := !(o.getD "" == "")

/-- `build_track_key(track, tolerance_ms)` from `app/domain/normalization.py`:
prefer the ISRC; otherwise combine normalized title, normalized artists and
the rounded duration. -/
def build_track_key (T : CharTable) (track : Track) (toleranceMs : ℤ) : String :=
  if optTruthy track.isrc then "isrc:" ++ track.isrc.getD ""
  else
    let titleN := normalize_string T track.title
    let artistsN := normalize_artists_joined T track.artists
    let durR := round_duration_ms track.duration_ms toleranceMs
    "meta:" ++ titleN ++ "::" ++ artistsN ++ "::" ++ toString durR

/-! ## Snapshot hashing (`app/application/idempotency.py`) -/

/-- `calculate_snapshot_hash(tracks)`: the SHA-256 hex digest is an external
library function, abstracted as the parameter `sha256hex` applied to the
UTF-8 text it receives (the byte literal `b"empty_snapshot"` equals the UTF-8
bytes of the string `"empty_snapshot"`).  Track keys use the default
tolerance of 2000 ms and are sorted before joining with newlines. -/
def calculate_snapshot_hash (sha256hex : String → String) (T : CharTable)
    (tracks : List Track) : String :=
  if tracks.isEmpty then sha256hex "empty_snapshot"
  else
    let trackKeys := sortStrings (tracks.map (fun t => build_track_key T t 2000))
    sha256hex (String.intercalate "\n" trackKeys)

/-! ## Matcher (`app/application/matching.py`) -/

/-- Matcher thresholds from `TrackMatcher.__init__`. -/
structure MatcherConfig where
  exact_threshold : ℚ
  fuzzy_threshold : ℚ
  ambiguous_threshold : ℚ
  allow_ambiguous_best : Bool

/-- The default `TrackMatcher` construction: thresholds 0.95, 0.85 and 0.05,
written as explicit fractions. -/
def defaultMatcherConfig : MatcherConfig :=
  ⟨mkRat 95 100, mkRat 85 100, mkRat 5 100, false⟩

/-- `str.split()` helper: split on whitespace runs, returning the words in
order; `cur` holds the characters of the current word, reversed. -/
def splitWsAux (T : CharTable) (cur : List Char) : List Char → List String
  | [] => if cur = [] then [] else [⟨cur.reverse⟩]
  | c :: rest =>
    if T.isSpace c then
      if cur = [] then splitWsAux T [] rest else ⟨cur.reverse⟩ :: splitWsAux T [] rest
    else splitWsAux T (c :: cur) rest

/-- `s.split()` with no separator argument. -/
def splitWs (T : CharTable) (s : String) : List String := splitWsAux T [] s.data

/-- `str.isdigit` on the ASCII fragment relevant to artist tokens. -/
def pyIsDigit (s : String) : Bool := !(s == "") && s.data.all Char.isDigit

/-- The tail/service token stop list shared by `_tokenize_artist_names` and
`normalization._TAIL_TOKENS`. -/
def tailTokens : List String := ["vol", "pt", "remaster", "remastered", "live", "edit"]

/-- `_tokenize_artist_names(artists)`: tokens of the joined normalized artist
names, with empty, numeric-only and stop-list tokens removed.  The Python
result is a `set`; the model keeps a list, which the code only ever queries
for membership and non-emptiness. -/
def tokenizeArtistNames (T : CharTable) (artists : List String) : List String :=
  if artists.isEmpty then []
  else
    let normalized := normalize_artists_joined T artists
    (splitWs T normalized).filter
      (fun tok => !(tok == "") && !pyIsDigit tok && !tailTokens.contains tok)

/-- `artist_overlap_ok(candidate_artists)` from `find_best_match`: at least one
shared token, or — when the source has no tokens — any candidate token. -/
def artistOverlapOk (T : CharTable) (sourceTokens : List String)
    (candArtists : Option (List String)) : Bool :=
  let candTokens := tokenizeArtistNames T (candArtists.getD [])
  if sourceTokens.isEmpty then !candTokens.isEmpty
  else candTokens.any (fun t => sourceTokens.contains t)

/-- `rank_key(c)`: an integer rank, or `10**9` when absent. -/
def rankVal (c : Candidate) : ℤ :=
  match c.rank with
  | some n => n
  | none => 1000000000

/-- The sort key `(rank_key(c), -c.confidence)` as a boolean `≤`. -/
def poolLeB (c d : Candidate) : Bool :=
  if rankVal c < rankVal d then true
  else if rankVal d < rankVal c then false
  else decide (d.confidence ≤ c.confidence)

/-- Proposition form of `poolLeB`, used as a sorting relation. -/
def poolLeR (c d : Candidate) : Prop := poolLeB c d = true

instance : DecidableRel poolLeR := fun c d => instDecidableEqBool (poolLeB c d) true

/-- Descending-confidence order for `sorted(candidates, key=..., reverse=True)`. -/
def confDescB (c d : Candidate) : Bool := decide (d.confidence ≤ c.confidence)

/-- Proposition form of `confDescB`. -/
def confDescR (c d : Candidate) : Prop := confDescB c d = true

instance : DecidableRel confDescR := fun c d => instDecidableEqBool (confDescB c d) true

/-- The metadata-first selection of `find_best_match` (source lines 85-123):
the value held by the local variable `selected` after the metadata strategy,
or `none` when the strategy does not apply.  `sorted` in Python is a stable
sort, as is `List.insertionSort`. -/
def findSelected (T : CharTable) (sourceTrack : Track) (candidates : List Candidate) :
    Option Candidate :=
  let sourceTitleN := normalize_string T sourceTrack.title
  let sourceTokens := tokenizeArtistNames T sourceTrack.artists
  -- every Candidate value has the `title` and `artists` attributes, so the
  -- `hasattr` filter keeps the whole list
  let metaCandidates := candidates
  if !metaCandidates.isEmpty && !(sourceTrack.title == "") && !sourceTrack.artists.isEmpty then
    let fullText := metaCandidates.filter (fun c =>
      normalize_string T (c.title.getD "") == sourceTitleN && artistOverlapOk T sourceTokens c.artists)
    let pool0 :=
      if !fullText.isEmpty then fullText
      else metaCandidates.filter (fun c => artistOverlapOk T sourceTokens c.artists)
    if pool0.isEmpty then none
    else
      let pool1 :=
        if optTruthy sourceTrack.album then
          let srcAlbumN := normalize_string T (sourceTrack.album.getD "")
          let albumMatched := pool0.filter (fun c => normalize_string T (c.album.getD "") == srcAlbumN)
          if !albumMatched.isEmpty then albumMatched else pool0
        else pool0
      (pool1.insertionSort poolLeR).head?
  else none

/-- Python `str.lower()` under the character table (used on the
`MUSYNC_RISK_MODE` environment value). -/
def lowerStr (T : CharTable) (s : String) : String := ⟨s.data.flatMap T.lower⟩

/-- The `not_found` result value. -/
def notFoundResult : MatchResult := ⟨none, 0, "not_found"⟩

/-- The `selected` candidate of `find_best_match`: the metadata-first choice,
or the confidence-order fallback (source lines 125-128). -/
def selectedOf (T : CharTable) (sourceTrack : Track) (candidates : List Candidate) :
    Option Candidate :=
  match findSelected T sourceTrack candidates with
  | some c => some c
  | none => (candidates.insertionSort confDescR).head?

/-- The risk-mode confidence floor (source lines 130-136). -/
def riskMinConf (cfg : MatcherConfig) (mode : String) : ℚ :=
  if mode == "strict" then cfg.fuzzy_threshold
  else if mode == "balanced" then mkRat 80 100
  else 0

/-- `TrackMatcher.find_best_match(source_track, candidates)`.  The
`MUSYNC_RISK_MODE` environment value is passed explicitly and lowered as in
the source. -/
def find_best_match (T : CharTable) (cfg : MatcherConfig) (riskModeEnv : String)
    (sourceTrack : Track) (candidates : List Candidate) : MatchResult :=
  if candidates.isEmpty then notFoundResult
  else
    match selectedOf T sourceTrack candidates with
    | none => notFoundResult
    | some selected =>
      if selected.confidence < riskMinConf cfg (lowerStr T riskModeEnv) then notFoundResult
      else ⟨some selected.uri, selected.confidence, selected.reason⟩

/-- One step of the counting loop in `calculate_false_match_rate`; the
accumulator holds `(false_matches, total_matches)`. -/
def fmrStep (acc : Nat × Nat) (p : MatchResult × Option String) : Nat × Nat :=
  if p.1.uri.isSome then
    (acc.1 + (if p.2.isSome && !(p.1.uri == p.2) then 1 else 0), acc.2 + 1)
  else acc

/-- `TrackMatcher.calculate_false_match_rate(results, expected_uris)`; the
`ValueError` on mismatched lengths becomes an `Except.error`. -/
def calculate_false_match_rate (results : List MatchResult)
    (expectedUris : List (Option String)) : Except String ℚ :=
  if results.length ≠ expectedUris.length then
    Except.error "Number of results must match number of expected URIs"
  else if results.isEmpty then Except.ok 0
  else
    let counts := (results.zip expectedUris).foldl fmrStep (0, 0)
    if counts.2 = 0 then Except.ok 0
    else Except.ok ((counts.1 : ℚ) / (counts.2 : ℚ))

/-- Modelled from the spec, not from the source: the false-match rate as the
claim states it, with matched results that carry no expected value excluded
from the denominator.  Used only to exhibit the divergence between the claim
and `calculate_false_match_rate`. -/
def specFalseMatchRate (results : List MatchResult)
    (expectedUris : List (Option String)) : Except String ℚ :=
  if results.length ≠ expectedUris.length then
    Except.error "Number of results must match number of expected URIs"
  else
    let considered := (results.zip expectedUris).filter
      (fun p => p.1.uri.isSome && p.2.isSome)
    if considered.length = 0 then Except.ok 0
    else
      Except.ok (((considered.filter (fun p => !(p.1.uri == p.2))).length : ℚ) /
        (considered.length : ℚ))

/-! ## Batch processing and transfer pipeline (`app/application/pipeline.py`) -/

deriving instance DecidableEq for Except

/-- Observable side effects of the pipeline: a call to the target provider's
`add_tracks_batch`, a `time.sleep` (seconds), and a checkpoint save. -/
inductive Event where
  | write (playlistId : String) (uris : List String)
  | sleep (seconds : ℚ)
  | save
deriving DecidableEq

/-- Whether an event is a provider write. -/
def Event.isWrite : Event → Bool
  | .write _ _ => true
  | _ => false

/-- Whether an event is a checkpoint save. -/
def Event.isSave : Event → Bool
  | .save => true
  | _ => false

/-- Whether an event is a sleep. -/
def Event.isSleep : Event → Bool
  | .sleep _ => true
  | _ => false

/-- One provider response to an `add_tracks_batch` call: a successful
`AddResult`, a `RateLimited` exception carrying `retry_after_ms`, or any
other exception (all retried alike by the source). -/
inductive WriteOutcome where
  | ok (r : AddResult)
  | rateLimited (retryAfterMs : ℚ)
  | fail (msg : String)
deriving DecidableEq

/-- The retry loop of `BatchProcessor.process_batch` (source lines 291-326),
driven by a script of provider responses; returns the outcome, the emitted
events and the unconsumed remainder of the script.  A `RateLimited` response
sleeps `retry_after_ms / 1000` seconds and retries with the same attempt
counter; any other exception increments the counter, raises a
`TemporaryFailure` once it exceeds `max_retries`, and otherwise sleeps
`2 ** (attempt - 1)` seconds before retrying.  The `while` guard
`attempt <= max_retries` holds whenever the loop re-enters, so the final
unreachable `raise` of the source has no counterpart.  An exhausted script is
a model artifact reported as an error. -/
def processBatchAux (maxRetries : Nat) (pid : String) (uris : List String) (attempt : Nat) :
    List WriteOutcome → Except String AddResult × List Event × List WriteOutcome
  | [] => (Except.error "model: provider script exhausted", [], [])
  | o :: rest =>
    match o with
    | .ok r => (Except.ok r, [Event.write pid uris], rest)
    | .rateLimited ms =>
      let next := processBatchAux maxRetries pid uris attempt rest
      (next.1, Event.write pid uris :: Event.sleep (ms / 1000) :: next.2.1, next.2.2)
    | .fail msg =>
      if attempt + 1 > maxRetries then
        (Except.error ("Failed to process batch after " ++ toString maxRetries ++ " retries: " ++ msg),
         [Event.write pid uris], rest)
      else
        let next := processBatchAux maxRetries pid uris (attempt + 1) rest
        (next.1, Event.write pid uris :: Event.sleep ((2 : ℚ) ^ attempt) :: next.2.1, next.2.2)

/-- `BatchProcessor.process_batch`: in dry-run mode, return a synthetic
success without calling the provider and without consuming the script;
otherwise run the retry loop starting at attempt 0.  The back-off exponent
`attempt` equals `2 ** ((attempt + 1) - 1)` of the source after the
increment. -/
def processBatch (maxRetries : Nat) (pid : String) (uris : List String) (dryRun : Bool)
    (script : List WriteOutcome) : Except String AddResult × List Event × List WriteOutcome :=
  if dryRun then (Except.ok ⟨uris.length, 0, 0⟩, [], script)
  else processBatchAux maxRetries pid uris 0 script

/-- `BatchProcessor.split_into_batches`, fuel-structured; fuel `uris.length`
suffices for every positive batch size. -/
def splitIntoBatchesAux (batchSize : Nat) : Nat → List String → List (List String)
  | 0, _ => []
  | _ + 1, [] => []
  | fuel + 1, uris => uris.take batchSize :: splitIntoBatchesAux batchSize fuel (uris.drop batchSize)

/-- `split_into_batches(track_uris)`: fixed-size chunks in order, last chunk
possibly shorter.  A zero batch size raises in Python (`range` with step 0)
and is modelled as no batches; the pipeline always uses a positive size. -/
def splitIntoBatches (batchSize : Nat) (uris : List String) : List (List String) :=
  if batchSize = 0 then [] else splitIntoBatchesAux batchSize uris.length uris

/-- The checkpoint fields that the resume path reads: the recorded
`addedUris` list and the scan cursor `cursor.trackIndex`.  The remaining JSON
fields (stage, batchIndex, timestamps, metadata) do not influence any
modelled observable. -/
structure CheckpointData where
  addedUris : List String
  trackIndex : Nat
deriving DecidableEq

/-- `TransferResult` (the wall-clock `duration_ms` field is not modelled). -/
structure TransferResult where
  playlist_id : String
  playlist_name : String
  total_tracks : Nat
  matched_tracks : Nat
  not_found_tracks : Nat
  ambiguous_tracks : Nat
  added_tracks : Nat
  duplicate_tracks : Nat
  failed_tracks : Nat
  errors : List String
deriving DecidableEq

/-- The batch loop of `_process_matched_tracks` (source lines 578-603) over
the enumerated batches, threading the provider script; returns
`(total_added, total_duplicates, total_errors, errors, events, rest_script)`. -/
def runBatches (maxRetries : Nat) (pid : String) (dryRun : Bool) :
    List (Nat × List String) → List WriteOutcome →
    Nat × Nat × Nat × List String × List Event × List WriteOutcome
  | [], script => (0, 0, 0, [], [], script)
  | (bi, buris) :: rest, script =>
    let saveEvs : List Event := if dryRun then [] else [Event.save]
    let step := processBatch maxRetries pid buris dryRun script
    match step.1 with
    | Except.ok r =>
      let next := runBatches maxRetries pid dryRun rest step.2.2
      (r.added + next.1, r.duplicates + next.2.1, r.errors + next.2.2.1, next.2.2.2.1,
       saveEvs ++ step.2.1 ++ next.2.2.2.2.1, next.2.2.2.2.2)
    | Except.error msg =>
      let next := runBatches maxRetries pid dryRun rest step.2.2
      (next.1, next.2.1, buris.length + next.2.2.1,
       ("Failed to process batch " ++ toString bi ++ ": " ++ msg) :: next.2.2.2.1,
       saveEvs ++ step.2.1 ++ next.2.2.2.2.1, next.2.2.2.2.2)

/-- `TransferPipeline._process_matched_tracks`: stage save, batch loop, result
statistics, completion save.  Checkpoint saves and the dry-run gating mirror
source lines 559-646; `added_tracks` is `0` under dry-run and otherwise
`total_added + already_added_count`. -/
def processMatchedTracks (maxRetries : Nat) (targetPlaylist : Playlist)
    (matchedUris : List String) (matchResults : List MatchResult)
    (dryRun : Bool) (alreadyAddedCount : Nat) (totalTracks : Option Nat)
    (batchSize : Nat) (script : List WriteOutcome) : TransferResult × List Event :=
  let stageEvs : List Event := if dryRun then [] else [Event.save]
  let batches := splitIntoBatches batchSize matchedUris
  let run := runBatches maxRetries targetPlaylist.id dryRun batches.enum script
  let totalAdded := run.1
  let totalDup := run.2.1
  let totalErr := run.2.2.1
  let errs := run.2.2.2.1
  let bev := run.2.2.2.2.1
  let total := totalTracks.getD matchResults.length
  let matched := (matchResults.filter (fun r => r.uri.isSome)).length
  let notFound := (matchResults.filter (fun r => r.reason == "not_found")).length
  let ambiguous := (matchResults.filter (fun r => r.reason == "ambiguous")).length
  let doneEvs : List Event := if dryRun then [] else [Event.save]
  (⟨targetPlaylist.id, targetPlaylist.name, total, matched, notFound, ambiguous,
    if dryRun then 0 else totalAdded + alreadyAddedCount, totalDup, totalErr, errs⟩,
   stageEvs ++ bev ++ doneEvs)

/-- The external collaborators of one transfer, as deterministic behaviour:
the source provider's track listing, the target provider's candidate search
(`find_track_candidates(track, top_k=3)`, which may raise), the target
playlist resolution, and the script of `add_tracks_batch` outcomes, plus the
batch size and retry bound of the pipeline construction. -/
structure PipelineEnv where
  listTracks : String → List Track
  findCandidates : Track → Except String (List Candidate)
  resolveOrCreate : String → Playlist
  script : List WriteOutcome
  batchSize : Nat
  maxRetries : Nat

/-- The per-track matching loop of `_start_fresh_transfer` (source lines
458-485): each track's candidate lookup and match run inside `try/except`,
an exception becoming a `MatchResult` with reason `"error"`; matched truthy
URIs are accumulated in order.  Returns `(match_results, matched_uris)`. -/
def freshMatchLoop (T : CharTable) (cfg : MatcherConfig) (riskMode : String)
    (find : Track → Except String (List Candidate)) : List Track → List MatchResult × List String
  | [] => ([], [])
  | t :: ts =>
    let mr :=
      match find t with
      | Except.error _ => (⟨none, 0, "error"⟩ : MatchResult)
      | Except.ok cands => find_best_match T cfg riskMode t cands
    let next := freshMatchLoop T cfg riskMode find ts
    (mr :: next.1, (if optTruthy mr.uri then [mr.uri.getD ""] else []) ++ next.2)

/-- The per-track matching loop of `_resume_from_checkpoint` (source lines
522-528).  There is no `try/except` here: a failing candidate lookup
propagates and aborts the whole resume.  A matched truthy URI is accumulated
only when it is not already recorded in the checkpoint's `addedUris`. -/
def resumeMatchLoop (T : CharTable) (cfg : MatcherConfig) (riskMode : String)
    (find : Track → Except String (List Candidate)) (alreadyAdded : List String) :
    List Track → Except String (List MatchResult × List String)
  | [] => Except.ok ([], [])
  | t :: ts =>
    match find t with
    | Except.error e => Except.error e
    | Except.ok cands =>
      let mr := find_best_match T cfg riskMode t cands
      match resumeMatchLoop T cfg riskMode find alreadyAdded ts with
      | Except.error e => Except.error e
      | Except.ok next =>
        Except.ok (mr :: next.1,
          (if optTruthy mr.uri && !alreadyAdded.contains (mr.uri.getD "") then [mr.uri.getD ""] else [])
            ++ next.2)

/-- The `Mock(uri="dummy", confidence=1.0, reason="already_processed")` stand-in
results created for already-processed tracks on resume (source line 537). -/
def dummyResult : MatchResult := ⟨some "dummy", 1, "already_processed"⟩

/-- `TransferPipeline._start_fresh_transfer`: initial and post-scan checkpoint
saves (suppressed under dry-run), track matching with per-track error
absorption, a periodic save every 10 processed tracks, then the shared
matched-tracks processing with `already_added_count = 0`. -/
def startFreshTransfer (T : CharTable) (cfg : MatcherConfig) (riskMode : String)
    (env : PipelineEnv) (sourcePlaylist : Playlist) (dryRun : Bool) :
    TransferResult × List Event :=
  let initEvs : List Event := if dryRun then [] else [Event.save]
  let sourceTracks := env.listTracks sourcePlaylist.id
  let scanEvs : List Event := if dryRun then [] else [Event.save]
  let targetPlaylist := env.resolveOrCreate sourcePlaylist.name
  let looped := freshMatchLoop T cfg riskMode env.findCandidates sourceTracks
  let periodicEvs : List Event :=
    if dryRun then [] else List.replicate (sourceTracks.length / 10) Event.save
  let processed := processMatchedTracks env.maxRetries targetPlaylist looped.2 looped.1
    dryRun 0 (some sourceTracks.length) env.batchSize env.script
  (processed.1, initEvs ++ scanEvs ++ periodicEvs ++ processed.2)

/-- `TransferPipeline._resume_from_checkpoint`: re-list the source tracks,
skip up to the recorded cursor, re-match the tail without error absorption,
filter out URIs already recorded as added, append dummy results for the
already-processed count, and hand over to the shared matched-tracks
processing. -/
def resumeFromCheckpoint (T : CharTable) (cfg : MatcherConfig) (riskMode : String)
    (env : PipelineEnv) (sourcePlaylist : Playlist) (cp : CheckpointData) (dryRun : Bool) :
    Except String (TransferResult × List Event) :=
  let sourceTracks := env.listTracks sourcePlaylist.id
  let targetPlaylist := env.resolveOrCreate sourcePlaylist.name
  let remaining := sourceTracks.drop cp.trackIndex
  match resumeMatchLoop T cfg riskMode env.findCandidates cp.addedUris remaining with
  | Except.error e => Except.error e
  | Except.ok looped =>
    let dummies := List.replicate cp.addedUris.length dummyResult
    Except.ok (processMatchedTracks env.maxRetries targetPlaylist looped.2 (looped.1 ++ dummies)
      dryRun cp.addedUris.length (some sourceTracks.length) env.batchSize env.script)

/-- `TransferPipeline.transfer_playlist`: dispatch on the presence of a loaded
checkpoint (`load_checkpoint` is modelled by the `checkpoint` argument). -/
def transferPlaylist (T : CharTable) (cfg : MatcherConfig) (riskMode : String)
    (env : PipelineEnv) (sourcePlaylist : Playlist) (checkpoint : Option CheckpointData)
    (dryRun : Bool) : Except String (TransferResult × List Event) :=
  match checkpoint with
  | some cp => resumeFromCheckpoint T cfg riskMode env sourcePlaylist cp dryRun
  | none => Except.ok (startFreshTransfer T cfg riskMode env sourcePlaylist dryRun)

/-! ## Fixtures used by concrete witnesses and counterexamples -/

/-- A sample digest function standing in for SHA-256 in concrete witnesses
(the hashing theorems hold for every digest function). -/
def tagHash (s : String) : String := "sha256:" ++ s

/-- A sample track with only descriptive metadata. -/
def sampleTrack (t : String) (a : List String) : Track :=
  ⟨none, "src", t, a, 0, none, none, none⟩

/-- A sample track identified by ISRC. -/
def sampleIsrcTrack (t isrc : String) : Track :=
  ⟨none, "src", t, [], 0, some isrc, none, none⟩

/-- A sample candidate with only the mandatory fields. -/
def sampleCand (u : String) (q : ℚ) (r : String) : Candidate :=
  ⟨u, q, r, none, none, none, none, none, none⟩

/-- A sample target playlist. -/
def samplePlaylist : Playlist := ⟨"target-id", "name", "owner", true, 0⟩

/-- A sample source playlist. -/
def sampleSource : Playlist := ⟨"source-id", "name", "owner", true, 0⟩

/-! ## Order properties of the string comparator -/

theorem char_eq_of_toNat_eq {a b : Char} (h : a.toNat = b.toNat) : a = b :=
  Char.ext (UInt32.ext h)

theorem charListLe_antisymm : ∀ {as bs : List Char},
    charListLe as bs = true → charListLe bs as = true → as = bs
  | [], [], _, _ => rfl
  | [], _ :: _, _, h => by simp [charListLe] at h
  | _ :: _, [], h, _ => by simp [charListLe] at h
  | a :: as, b :: bs, h, h' => by
    simp only [charListLe] at h h'
    split at h
    · next hab =>
      rw [if_neg (Nat.lt_asymm hab), if_pos hab] at h'
      exact absurd h' (by simp)
    · next hab =>
      split at h
      · exact absurd h (by simp)
      · next hba =>
        have hn : a.toNat = b.toNat := Nat.le_antisymm (Nat.not_lt.mp hba) (Nat.not_lt.mp hab)
        rw [if_neg (by omega), if_neg (by omega)] at h'
        rw [char_eq_of_toNat_eq hn, charListLe_antisymm h h']

theorem charListLe_total : ∀ (as bs : List Char),
    charListLe as bs = true ∨ charListLe bs as = true
  | [], _ => Or.inl rfl
  | _ :: _, [] => Or.inr rfl
  | a :: as, b :: bs => by
    simp only [charListLe]
    rcases Nat.lt_trichotomy a.toNat b.toNat with h | h | h
    · left; rw [if_pos h]
    · rw [if_neg (by omega), if_neg (by omega), if_neg (by omega), if_neg (by omega)]
      exact charListLe_total as bs
    · right; rw [if_pos h]

theorem charListLe_trans : ∀ {as bs cs : List Char},
    charListLe as bs = true → charListLe bs cs = true → charListLe as cs = true
  | [], _, _, _, _ => rfl
  | _ :: _, [], _, h, _ => by simp [charListLe] at h
  | _ :: _, _ :: _, [], _, h' => by simp [charListLe] at h'
  | a :: as, b :: bs, c :: cs, h, h' => by
    simp only [charListLe] at h h' ⊢
    split at h
    · next hab =>
      split at h'
      · next hbc => rw [if_pos (Nat.lt_trans hab hbc)]
      · next hbc =>
        split at h'
        · exact absurd h' (by simp)
        · next hcb =>
          have hbc' : b.toNat = c.toNat := by omega
          rw [if_pos (hbc' ▸ hab)]
    · next hab =>
      split at h
      · exact absurd h (by simp)
      · next hba =>
        have hab' : a.toNat = b.toNat := by omega
        split at h'
        · next hbc => rw [if_pos (hab' ▸ hbc)]
        · next hbc =>
          split at h'
          · exact absurd h' (by simp)
          · next hcb =>
            rw [if_neg (by omega), if_neg (by omega)]
            exact charListLe_trans h h'

theorem string_eq_of_data_eq {a b : String} (h : a.data = b.data) : a = b := by
  cases a
  cases b
  exact congrArg String.mk h

instance : IsTotal String strLeR :=
  ⟨fun a b => charListLe_total a.data b.data⟩

instance : IsTrans String strLeR :=
  ⟨fun _ _ _ h h' => charListLe_trans h h'⟩

instance : IsAntisymm String strLeR :=
  ⟨fun _ _ h h' => string_eq_of_data_eq (charListLe_antisymm h h')⟩

/-- Permuted lists of strings sort to the same list. -/
theorem sortStrings_perm_eq {l l' : List String} (h : l.Perm l') :
    sortStrings l = sortStrings l' :=
  List.eq_of_perm_of_sorted
    ((List.perm_insertionSort strLeR l).trans (h.trans (List.perm_insertionSort strLeR l').symm))
    (List.sorted_insertionSort strLeR l)
    (List.sorted_insertionSort strLeR l')

/-! ## Claim C1 — snapshot hash: permutation invariance and empty sentinel -/

/-- C1: for every digest function and every permutation of a track list,
`calculate_snapshot_hash` returns the same hex digest (it sorts the derived
identity keys before hashing), and for the empty list it returns the digest
of the fixed sentinel text `"empty_snapshot"`. -/
theorem snapshot_hash_perm_invariant (sha256hex : String → String) (T : CharTable)
    (l l' : List Track) (h : l.Perm l') :
    calculate_snapshot_hash sha256hex T l = calculate_snapshot_hash sha256hex T l' ∧
    calculate_snapshot_hash sha256hex T [] = sha256hex "empty_snapshot" := by
  refine ⟨?_, rfl⟩
  cases l with
  | nil =>
    rw [h.nil_eq.symm]
  | cons t ts =>
    cases l' with
    | nil => exact absurd h.symm.nil_eq (by simp)
    | cons t' ts' =>
      unfold calculate_snapshot_hash
      simp only [List.isEmpty_cons]
      rw [sortStrings_perm_eq (h.map (fun tk => build_track_key T tk 2000))]

/-- Concrete instance of C1: swapping two tracks leaves the digest unchanged,
and the empty snapshot digests the sentinel text. -/
theorem snapshot_hash_perm_invariant_witness :
    ([sampleIsrcTrack "a" "ISRC1", sampleIsrcTrack "b" "ISRC2"].Perm
      [sampleIsrcTrack "b" "ISRC2", sampleIsrcTrack "a" "ISRC1"]) ∧
    (calculate_snapshot_hash tagHash asciiTable
        [sampleIsrcTrack "a" "ISRC1", sampleIsrcTrack "b" "ISRC2"] =
      calculate_snapshot_hash tagHash asciiTable
        [sampleIsrcTrack "b" "ISRC2", sampleIsrcTrack "a" "ISRC1"] ∧
      calculate_snapshot_hash tagHash asciiTable [] = tagHash "empty_snapshot") :=
  ⟨by decide, snapshot_hash_perm_invariant tagHash asciiTable _ _ (by decide)⟩

/-! ## Selection lemmas for the matcher -/

theorem head?_insertionSort_mem {r : Candidate → Candidate → Prop} [DecidableRel r]
    {l : List Candidate} {c : Candidate} (h : (l.insertionSort r).head? = some c) : c ∈ l := by
  have hc : c ∈ l.insertionSort r := by
    cases hs : l.insertionSort r with
    | nil => rw [hs] at h; exact absurd h (by simp)
    | cons a tl =>
      rw [hs] at h
      simp only [List.head?_cons, Option.some.injEq] at h
      rw [← h]
      exact List.mem_cons_self a tl
  exact (List.mem_insertionSort r).mp hc

/-- Every candidate produced by the metadata-first selection comes from the
input list. -/
theorem findSelected_mem {T : CharTable} {t : Track} {cands : List Candidate} {c : Candidate}
    (h : findSelected T t cands = some c) : c ∈ cands := by
  simp only [findSelected] at h
  repeat' split at h
  all_goals first
    | exact (List.mem_filter.mp (List.mem_filter.mp (head?_insertionSort_mem h)).1).1
    | exact (List.mem_filter.mp (head?_insertionSort_mem h)).1
    | exact head?_insertionSort_mem h
    | simp at h

/-- The `selected` candidate always comes from the input list. -/
theorem selectedOf_mem {T : CharTable} {t : Track} {cands : List Candidate} {c : Candidate}
    (h : selectedOf T t cands = some c) : c ∈ cands := by
  unfold selectedOf at h
  cases hfs : findSelected T t cands with
  | some c2 =>
    rw [hfs] at h
    simp only [Option.some.injEq] at h
    exact h ▸ findSelected_mem hfs
  | none =>
    rw [hfs] at h
    exact head?_insertionSort_mem h

/-- Case analysis of `find_best_match`: the result is either the `not_found`
record (empty input, or the risk gate) or the verbatim
`(uri, confidence, reason)` of a candidate from the input list. -/
theorem find_best_match_cases (T : CharTable) (cfg : MatcherConfig) (mode : String)
    (t : Track) (cands : List Candidate) :
    find_best_match T cfg mode t cands = notFoundResult ∨
    ∃ c ∈ cands, find_best_match T cfg mode t cands = ⟨some c.uri, c.confidence, c.reason⟩ := by
  unfold find_best_match
  split
  · exact Or.inl rfl
  · cases hsel : selectedOf T t cands with
    | none => simp [hsel]
    | some sel =>
      simp only [hsel]
      have hmem : sel ∈ cands := selectedOf_mem hsel
      split
      · exact Or.inl rfl
      · exact Or.inr ⟨sel, hmem, rfl⟩

/-! ## Claim C9 — `ambiguous` is never constructed by the matcher -/

/-- C9 (amended): `find_best_match` returns either `not_found` (empty list or
risk gate) or a selected candidate's `(uri, confidence, reason)` verbatim; it
never constructs an `ambiguous` result itself, so whenever no input candidate
carries reason `"ambiguous"`, the result's reason is not `"ambiguous"`.  (The
unrestricted claim fails because a candidate's own reason string is passed
through; see the counterexample.) -/
theorem matcher_never_constructs_ambiguous (T : CharTable) (cfg : MatcherConfig)
    (mode : String) (t : Track) (cands : List Candidate) :
    (find_best_match T cfg mode t cands = notFoundResult ∨
      ∃ c ∈ cands, find_best_match T cfg mode t cands = ⟨some c.uri, c.confidence, c.reason⟩) ∧
    ((∀ c ∈ cands, c.reason ≠ "ambiguous") →
      (find_best_match T cfg mode t cands).reason ≠ "ambiguous") := by
  refine ⟨find_best_match_cases T cfg mode t cands, fun hno => ?_⟩
  rcases find_best_match_cases T cfg mode t cands with hnf | ⟨c, hc, he⟩
  · rw [hnf]
    decide
  · rw [he]
    exact hno c hc

/-- Instance of C9 (amended) at a concrete input. -/
theorem matcher_never_constructs_ambiguous_witness :
    (find_best_match asciiTable defaultMatcherConfig "strict" (sampleTrack "" [])
      [sampleCand "u" 1 "isrc_exact"]).reason ≠ "ambiguous" :=
  (matcher_never_constructs_ambiguous asciiTable defaultMatcherConfig "strict"
    (sampleTrack "" []) [sampleCand "u" 1 "isrc_exact"]).2 (by decide)

/-- Counterexample to C9 as frozen: a candidate whose own reason string is
`"ambiguous"` is passed through verbatim, so `find_best_match` does return a
result with reason `"ambiguous"`. -/
theorem matcher_ambiguous_passthrough_cex :
    find_best_match asciiTable defaultMatcherConfig "strict" (sampleTrack "" [])
      [sampleCand "u" 1 "ambiguous"] = ⟨some "u", 1, "ambiguous"⟩ := by decide

/-! ## Claim C8 — `isrc_exact` results and confidence 1.0 -/

/-- C8 (amended): when every input candidate with reason `"isrc_exact"` has
confidence 1 — as holds for provider-constructed candidates, where the
`isrc` search type forces confidence 1.0 — a `find_best_match` result with
reason `"isrc_exact"` has confidence 1.  (The unrestricted claim fails
because the matcher copies a candidate's confidence unchanged; see the
counterexample.) -/
theorem isrc_exact_result_confidence_one (T : CharTable) (cfg : MatcherConfig)
    (mode : String) (t : Track) (cands : List Candidate)
    (hinv : ∀ c ∈ cands, c.reason = "isrc_exact" → c.confidence = 1)
    (hr : (find_best_match T cfg mode t cands).reason = "isrc_exact") :
    (find_best_match T cfg mode t cands).confidence = 1 := by
  rcases find_best_match_cases T cfg mode t cands with hnf | ⟨c, hc, he⟩
  · rw [hnf] at hr
    exact absurd hr (by decide)
  · rw [he] at hr ⊢
    exact hinv c hc hr

/-- Instance of C8 (amended) at a concrete input. -/
theorem isrc_exact_result_confidence_one_witness :
    (find_best_match asciiTable defaultMatcherConfig "strict" (sampleTrack "" [])
      [sampleCand "u" 1 "isrc_exact"]).confidence = 1 :=
  isrc_exact_result_confidence_one asciiTable defaultMatcherConfig "strict"
    (sampleTrack "" []) [sampleCand "u" 1 "isrc_exact"] (by decide) (by decide)

/-- Counterexample to C8 as frozen: a candidate carrying reason
`"isrc_exact"` with confidence 9/10 (above the strict floor 0.85) is passed
through with its confidence unchanged, so the result's reason is
`"isrc_exact"` while its confidence is not 1. -/
theorem isrc_exact_low_confidence_cex :
    find_best_match asciiTable defaultMatcherConfig "strict" (sampleTrack "" [])
      [sampleCand "u" (mkRat 9 10) "isrc_exact"] =
      ⟨some "u", mkRat 9 10, "isrc_exact"⟩ ∧
    (mkRat 9 10 : ℚ) ≠ 1 := by decide

/-! ## Claim C5 — risk-mode confidence gating -/

/-- C5: with a non-empty candidate list and `c` the selected candidate, the
lowered risk mode gates the result: under `strict` the floor is the fuzzy
threshold (0.85 in the default configuration, stated in the first conjunct);
under `balanced` the floor is 0.80; under any other mode no floor applies to
a (well-formed, non-negative) confidence and the selected candidate's
`(uri, confidence, reason)` is returned. -/
theorem risk_mode_gating (T : CharTable) (cfg : MatcherConfig) (mode : String)
    (t : Track) (cands : List Candidate) (c : Candidate)
    (hne : cands ≠ []) (hsel : selectedOf T t cands = some c) :
    defaultMatcherConfig.fuzzy_threshold = mkRat 85 100 ∧
    (lowerStr T mode = "strict" →
      (c.confidence < cfg.fuzzy_threshold →
        find_best_match T cfg mode t cands = notFoundResult) ∧
      (cfg.fuzzy_threshold ≤ c.confidence →
        find_best_match T cfg mode t cands = ⟨some c.uri, c.confidence, c.reason⟩)) ∧
    (lowerStr T mode = "balanced" →
      (c.confidence < mkRat 80 100 →
        find_best_match T cfg mode t cands = notFoundResult) ∧
      (mkRat 80 100 ≤ c.confidence →
        find_best_match T cfg mode t cands = ⟨some c.uri, c.confidence, c.reason⟩)) ∧
    (lowerStr T mode ≠ "strict" → lowerStr T mode ≠ "balanced" → 0 ≤ c.confidence →
      find_best_match T cfg mode t cands = ⟨some c.uri, c.confidence, c.reason⟩) := by
  have hem : cands.isEmpty = false := by
    cases cands with
    | nil => exact absurd rfl hne
    | cons a l => rfl
  unfold find_best_match
  rw [hem, hsel]
  simp only [Bool.false_eq_true, if_false]
  refine ⟨rfl, fun hm => ?_, fun hm => ?_, fun hm1 hm2 hc => ?_⟩
  · rw [hm]
    constructor
    · intro hlt
      simp [riskMinConf, hlt]
    · intro hge
      simp [riskMinConf, not_lt.mpr hge]
  · rw [hm]
    constructor
    · intro hlt
      simp [riskMinConf, hlt]
    · intro hge
      simp [riskMinConf, not_lt.mpr hge]
  · simp [riskMinConf, beq_iff_eq, hm1, hm2, not_lt.mpr hc]

/-- Instance of C5 at concrete inputs: a 1/2-confidence candidate is gated to
`not_found` under `strict` and returned unchanged under `aggressive`. -/
theorem risk_mode_gating_witness :
    find_best_match asciiTable defaultMatcherConfig "strict" (sampleTrack "" [])
      [sampleCand "u" (mkRat 1 2) "fuzzy_match"] = notFoundResult ∧
    find_best_match asciiTable defaultMatcherConfig "aggressive" (sampleTrack "" [])
      [sampleCand "u" (mkRat 1 2) "fuzzy_match"] = ⟨some "u", mkRat 1 2, "fuzzy_match"⟩ :=
  ⟨((risk_mode_gating asciiTable defaultMatcherConfig "strict" (sampleTrack "" [])
      [sampleCand "u" (mkRat 1 2) "fuzzy_match"] (sampleCand "u" (mkRat 1 2) "fuzzy_match")
      (by decide) (by decide)).2.1 (by decide)).1 (by decide),
   (risk_mode_gating asciiTable defaultMatcherConfig "aggressive" (sampleTrack "" [])
      [sampleCand "u" (mkRat 1 2) "fuzzy_match"] (sampleCand "u" (mkRat 1 2) "fuzzy_match")
      (by decide) (by decide)).2.2.2 (by decide) (by decide) (by decide)⟩

/-! ## Claim C7 — false-match rate -/

/-- The counting fold of `calculate_false_match_rate` equals filter counts:
the total is the number of matched pairs, the false count the number of
matched pairs with a differing non-null expectation. -/
theorem fmr_fold_spec (pairs : List (MatchResult × Option String)) (acc : Nat × Nat) :
    pairs.foldl fmrStep acc =
      (acc.1 + (pairs.filter
          (fun p => p.1.uri.isSome && (p.2.isSome && !(p.1.uri == p.2)))).length,
       acc.2 + (pairs.filter (fun p => p.1.uri.isSome)).length) := by
  induction pairs generalizing acc with
  | nil => simp
  | cons p rest ih =>
    rw [List.foldl_cons, ih]
    unfold fmrStep
    cases hu : p.1.uri.isSome with
    | false => simp [hu]
    | true =>
      cases he : (p.2.isSome && !(p.1.uri == p.2)) with
      | false => simp [hu, he, Nat.add_assoc, Nat.add_comm 1]
      | true => simp [hu, he, Nat.add_assoc, Nat.add_comm 1]

/-- C7 (amended): `calculate_false_match_rate` raises on mismatched lengths
and otherwise returns the fraction of matched results (non-null `uri`) whose
expectation is non-null and differs — with ALL matched results in the
denominator, including those with no expected value — and `0` when there are
no matched results.  (The frozen claim excludes no-expectation matches from
the denominator; the code does not — see the counterexample.) -/
theorem false_match_rate_characterization (rs : List MatchResult)
    (es : List (Option String)) :
    (rs.length ≠ es.length → ∃ msg, calculate_false_match_rate rs es = Except.error msg) ∧
    (rs.length = es.length →
      calculate_false_match_rate rs es =
        Except.ok
          (if ((rs.zip es).filter (fun p => p.1.uri.isSome)).length = 0 then 0
           else ((((rs.zip es).filter (fun p => p.1.uri.isSome)).filter
               (fun p => p.2.isSome && !(p.1.uri == p.2))).length : ℚ) /
             (((rs.zip es).filter (fun p => p.1.uri.isSome)).length : ℚ))) := by
  constructor
  · intro hne
    exact ⟨_, by rw [calculate_false_match_rate, if_pos hne]⟩
  · intro hlen
    unfold calculate_false_match_rate
    rw [if_neg (by omega)]
    rw [List.filter_filter]
    cases rs with
    | nil => simp
    | cons r rest =>
      simp only [List.isEmpty_cons, Bool.false_eq_true, if_false]
      rw [fmr_fold_spec]
      simp only [Nat.zero_add]
      by_cases hz : (((r :: rest).zip es).filter (fun p => p.1.uri.isSome)).length = 0
      · rw [if_pos hz, if_pos hz]
      · rw [if_neg hz, if_neg hz]
        have hpred : ∀ a : MatchResult × Option String,
            (a.1.uri.isSome && (a.2.isSome && !(a.1.uri == a.2))) =
            (a.2.isSome && !(a.1.uri == a.2) && a.1.uri.isSome) := by
          intro a
          cases a.1.uri.isSome <;> cases a.2.isSome <;> cases (a.1.uri == a.2) <;> rfl
        rw [List.filter_congr (fun a _ => hpred a)]

/-- Instance of C7 (amended) at a concrete input: one matched result with a
matching expectation gives rate 0. -/
theorem false_match_rate_characterization_witness :
    calculate_false_match_rate [⟨some "a", 1, "isrc_exact"⟩] [some "a"] = Except.ok 0 := by
  have h := (false_match_rate_characterization [⟨some "a", 1, "isrc_exact"⟩] [some "a"]).2 rfl
  simpa using h

/-- Counterexample to C7 as frozen: with two matched results, one lacking an
expectation, the code keeps both in the denominator (rate 1/2), while the
claim's exclusion rule would give 1/1. -/
theorem false_match_rate_denominator_cex :
    calculate_false_match_rate [⟨some "a", 1, "m"⟩, ⟨some "b", 1, "m"⟩] [none, some "c"] =
      Except.ok ((1 : ℚ) / 2) ∧
    specFalseMatchRate [⟨some "a", 1, "m"⟩, ⟨some "b", 1, "m"⟩] [none, some "c"] =
      Except.ok 1 ∧
    ((1 : ℚ) / 2) ≠ 1 := by
  refine ⟨by simp [calculate_false_match_rate, fmrStep], by simp [specFalseMatchRate], by norm_num⟩

/-! ## Claim C3 — batch retry policy -/

/-- C3: in a non-dry batch, a `RateLimited` response causes exactly one sleep
of the suggested duration (`retry_after_ms / 1000` seconds) and a retry with
the attempt counter unchanged; any other exception increments the counter and,
while it has not exceeded `max_retries`, sleeps `2 ** (attempt - 1)` seconds
and retries; once the counter exceeds `max_retries` a `TemporaryFailure` is
raised.  In particular, a write that is rate-limited once and then succeeds
performs exactly one sleep and returns the provider's `AddResult`. -/
theorem process_batch_retry_policy (m : Nat) (pid : String) (uris : List String)
    (a : Nat) (ms : ℚ) (msg : String) (rest : List WriteOutcome) (r : AddResult) :
    (processBatchAux m pid uris a (WriteOutcome.rateLimited ms :: rest) =
      ((processBatchAux m pid uris a rest).1,
       Event.write pid uris :: Event.sleep (ms / 1000) :: (processBatchAux m pid uris a rest).2.1,
       (processBatchAux m pid uris a rest).2.2)) ∧
    (a + 1 ≤ m →
      processBatchAux m pid uris a (WriteOutcome.fail msg :: rest) =
        ((processBatchAux m pid uris (a + 1) rest).1,
         Event.write pid uris ::
           Event.sleep ((2 : ℚ) ^ ((a + 1) - 1)) ::
             (processBatchAux m pid uris (a + 1) rest).2.1,
         (processBatchAux m pid uris (a + 1) rest).2.2)) ∧
    (a + 1 > m →
      ∃ emsg, processBatchAux m pid uris a (WriteOutcome.fail msg :: rest) =
        (Except.error emsg, [Event.write pid uris], rest)) ∧
    (processBatch m pid uris false [WriteOutcome.rateLimited ms, WriteOutcome.ok r] =
      (Except.ok r, [Event.write pid uris, Event.sleep (ms / 1000), Event.write pid uris], []) ∧
     ((processBatch m pid uris false
        [WriteOutcome.rateLimited ms, WriteOutcome.ok r]).2.1.filter Event.isSleep).length = 1) := by
  refine ⟨rfl, fun hle => ?_, fun hgt => ?_, rfl, ?_⟩
  · rw [processBatchAux, if_neg (by omega)]
    rfl
  · exact ⟨_, by rw [processBatchAux, if_pos hgt]⟩
  · rfl

/-- Instance of C3 at concrete inputs: a failure with the retry budget not yet
exhausted sleeps `2 ** 0 = 1` second and retries with the counter at 1. -/
theorem process_batch_retry_policy_witness :
    processBatchAux 3 "pl" ["u"] 0 [WriteOutcome.fail "e", WriteOutcome.ok ⟨1, 0, 0⟩] =
      ((processBatchAux 3 "pl" ["u"] 1 [WriteOutcome.ok ⟨1, 0, 0⟩]).1,
       Event.write "pl" ["u"] ::
         Event.sleep ((2 : ℚ) ^ ((0 + 1) - 1)) ::
           (processBatchAux 3 "pl" ["u"] 1 [WriteOutcome.ok ⟨1, 0, 0⟩]).2.1,
       (processBatchAux 3 "pl" ["u"] 1 [WriteOutcome.ok ⟨1, 0, 0⟩]).2.2) :=
  (process_batch_retry_policy 3 "pl" ["u"] 0 0 "e" [WriteOutcome.ok ⟨1, 0, 0⟩] ⟨1, 0, 0⟩).2.1
    (by decide)

/-! ## Pipeline trace lemmas -/

/-- Every event of the batch retry loop is a write of exactly the batch URIs
to the target playlist, or a sleep. -/
theorem processBatchAux_events (m : Nat) (pid : String) (uris : List String) :
    ∀ (script : List WriteOutcome) (a : Nat) (e : Event),
      e ∈ (processBatchAux m pid uris a script).2.1 →
      e = Event.write pid uris ∨ e.isSleep = true
  | [], _, e, h => absurd h (by simp [processBatchAux])
  | WriteOutcome.ok r :: rest, a, e, h => by
    simp only [processBatchAux, List.mem_singleton] at h
    exact Or.inl h
  | WriteOutcome.rateLimited ms :: rest, a, e, h => by
    simp only [processBatchAux, List.mem_cons] at h
    rcases h with h | h | h
    · exact Or.inl h
    · exact Or.inr (by rw [h]; rfl)
    · exact processBatchAux_events m pid uris rest a e h
  | WriteOutcome.fail msg :: rest, a, e, h => by
    simp only [processBatchAux] at h
    split at h
    · simp only [List.mem_singleton] at h
      exact Or.inl h
    · simp only [List.mem_cons] at h
      rcases h with h | h | h
      · exact Or.inl h
      · exact Or.inr (by rw [h]; rfl)
      · exact processBatchAux_events m pid uris rest (a + 1) e h

/-- Every write event of the batch loop writes the URI list of one of the
supplied batches. -/
theorem runBatches_write_uris (m : Nat) (pid : String) (dry : Bool) :
    ∀ (bs : List (Nat × List String)) (script : List WriteOutcome) (p : String) (u : List String),
      Event.write p u ∈ (runBatches m pid dry bs script).2.2.2.2.1 →
      ∃ bi, (bi, u) ∈ bs ∧ p = pid
  | [], _, p, u, h => absurd h (by simp [runBatches])
  | (bi, buris) :: rest, script, p, u, h => by
    have hstep : ∀ e ∈ (processBatch m pid buris dry script).2.1,
        e = Event.write pid buris ∨ e.isSleep = true := by
      intro e he
      unfold processBatch at he
      split at he
      · exact absurd he (by simp)
      · exact processBatchAux_events m pid buris script 0 e he
    simp only [runBatches] at h
    split at h
    all_goals
      simp only [List.mem_append] at h
      rcases h with (hsv | hst) | hrest
      · split at hsv
        · exact absurd hsv (by simp)
        · simp at hsv
      · rcases hstep _ hst with he | he
        · injection he with h1 h2
          exact ⟨bi, by rw [h2]; exact List.mem_cons_self _ _, h1⟩
        · exact absurd he (by simp [Event.isSleep])
      · obtain ⟨bj, hj, hp⟩ := runBatches_write_uris m pid dry rest _ p u hrest
        exact ⟨bj, List.mem_cons_of_mem _ hj, hp⟩

/-- On the resume path, every newly accumulated URI is absent from the
checkpoint's `addedUris`. -/
theorem resumeMatchLoop_uris_not_added (T : CharTable) (cfg : MatcherConfig)
    (mode : String) (find : Track → Except String (List Candidate)) (added : List String) :
    ∀ (ts : List Track) (mrs : List MatchResult) (uris : List String),
      resumeMatchLoop T cfg mode find added ts = Except.ok (mrs, uris) →
      ∀ u ∈ uris, u ∉ added
  | [], mrs, uris, h => by
    simp only [resumeMatchLoop, Except.ok.injEq, Prod.mk.injEq] at h
    rw [← h.2]
    intro u hu
    exact absurd hu (by simp)
  | t :: ts, mrs, uris, h => by
    simp only [resumeMatchLoop] at h
    split at h
    · exact absurd h (by simp)
    · split at h
      · exact absurd h (by simp)
      · next looped heq =>
        simp only [Except.ok.injEq, Prod.mk.injEq] at h
        intro u hu
        rw [← h.2] at hu
        simp only [List.mem_append] at hu
        rcases hu with hu | hu
        · split at hu
          · next hcond =>
            simp only [List.mem_singleton] at hu
            have hnc := (Bool.and_elim_right hcond)
            rw [hu]
            simpa using hnc
          · exact absurd hu (by simp)
        · exact resumeMatchLoop_uris_not_added T cfg mode find added ts looped.1 looped.2
            (by rw [heq]) u hu

/-- Every element of a batch comes from the split URI list. -/
theorem splitIntoBatchesAux_subset (batchSize : Nat) :
    ∀ (fuel : Nat) (uris b : List String),
      b ∈ splitIntoBatchesAux batchSize fuel uris → ∀ x ∈ b, x ∈ uris
  | 0, uris, b, h => absurd h (by simp [splitIntoBatchesAux])
  | fuel + 1, [], b, h => absurd h (by simp [splitIntoBatchesAux])
  | fuel + 1, u :: us, b, h => by
    simp only [splitIntoBatchesAux, List.mem_cons] at h
    rcases h with h | h
    · intro x hx
      rw [h] at hx
      exact List.take_subset _ _ hx
    · intro x hx
      exact List.drop_subset _ _
        (splitIntoBatchesAux_subset batchSize fuel ((u :: us).drop batchSize) b h x hx)

/-- Every element of a batch comes from the split URI list. -/
theorem splitIntoBatches_subset {batchSize : Nat} {uris b : List String}
    (h : b ∈ splitIntoBatches batchSize uris) : ∀ x ∈ b, x ∈ uris := by
  unfold splitIntoBatches at h
  split at h
  · exact absurd h (by simp)
  · exact splitIntoBatchesAux_subset batchSize uris.length uris b h

/-- With a script of successful outcomes, the batch loop's total added count
is the sum of the provider-reported `added` values consumed, one per batch. -/
theorem runBatches_ok_script (m : Nat) (pid : String) :
    ∀ (bs : List (Nat × List String)) (rs : List AddResult),
      (runBatches m pid false bs (rs.map WriteOutcome.ok)).1 =
        ((rs.take bs.length).map AddResult.added).sum
  | [], rs => by simp [runBatches]
  | (bi, buris) :: rest, [] => by
    simp only [runBatches, List.map_nil, processBatch, Bool.false_eq_true, if_false,
      processBatchAux]
    have ih := runBatches_ok_script m pid rest []
    simp only [List.map_nil] at ih
    simp [ih]
  | (bi, buris) :: rest, r :: rs => by
    simp only [runBatches, List.map_cons, processBatch, Bool.false_eq_true, if_false,
      processBatchAux]
    have ih := runBatches_ok_script m pid rest rs
    simp [ih]

/-! ## Claim C2 — resume never re-submits recorded URIs; added accounting -/

/-- C2: when a transfer resumes from a checkpoint (not dry-run) and completes,
no URI recorded in the checkpoint's `addedUris` appears in any batch written
to the target provider; and with a script of successful provider responses,
the reported `added_tracks` equals the count of previously recorded
`addedUris` plus the sum of the provider-reported `added` counts of this
run's writes. -/
theorem resume_no_resubmission (T : CharTable) (cfg : MatcherConfig) (mode : String)
    (env : PipelineEnv) (sp : Playlist) (cp : CheckpointData) (r : TransferResult)
    (evs : List Event) (rs : List AddResult)
    (hscript : env.script = rs.map WriteOutcome.ok)
    (hres : resumeFromCheckpoint T cfg mode env sp cp false = Except.ok (r, evs)) :
    (∀ p u, Event.write p u ∈ evs → ∀ x ∈ u, x ∉ cp.addedUris) ∧
    (∃ k, k ≤ rs.length ∧
      r.added_tracks = cp.addedUris.length + ((rs.take k).map AddResult.added).sum) := by
  simp only [resumeFromCheckpoint] at hres
  split at hres
  · exact absurd hres (by simp)
  · next looped heq =>
    simp only [Except.ok.injEq, Prod.mk.injEq, processMatchedTracks] at hres
    obtain ⟨hr, hevs⟩ := hres
    have hloop : resumeMatchLoop T cfg mode env.findCandidates cp.addedUris
        ((env.listTracks sp.id).drop cp.trackIndex) = Except.ok (looped.1, looped.2) := by
      rw [heq]
    constructor
    · intro p u hmem x hx
      rw [← hevs] at hmem
      simp only [Bool.false_eq_true, if_false, List.mem_append, List.mem_singleton] at hmem
      rcases hmem with (hmem | hmem) | hmem
      · exact absurd hmem (by simp)
      · obtain ⟨bi, hb, hp⟩ := runBatches_write_uris env.maxRetries
          (env.resolveOrCreate sp.name).id false
          (splitIntoBatches env.batchSize looped.2).enum env.script p u hmem
        have hu2 : u ∈ splitIntoBatches env.batchSize looped.2 :=
          List.snd_mem_of_mem_enum hb
        have hx2 : x ∈ looped.2 := splitIntoBatches_subset hu2 x hx
        exact resumeMatchLoop_uris_not_added T cfg mode env.findCandidates cp.addedUris
          ((env.listTracks sp.id).drop cp.trackIndex) looped.1 looped.2 hloop x hx2
      · exact absurd hmem (by simp)
    · refine ⟨min (splitIntoBatches env.batchSize looped.2).enum.length rs.length,
        Nat.min_le_right _ _, ?_⟩
      have hadded := congrArg TransferResult.added_tracks hr
      dsimp only at hadded
      rw [hscript, runBatches_ok_script] at hadded
      simp only [Bool.false_eq_true, if_false] at hadded
      by_cases hn : (splitIntoBatches env.batchSize looped.2).enum.length ≤ rs.length
      · rw [Nat.min_eq_left hn, ← hadded]
        omega
      · rw [List.take_of_length_le (Nat.le_of_not_le hn)] at hadded
        rw [Nat.min_eq_right (Nat.le_of_not_le hn), List.take_length, ← hadded]
        omega

/-- Instance of C2 at concrete inputs: one already-recorded URI, one newly
matched URI; the submitted batch avoids the recorded URI and the tally counts
one previously recorded plus one newly added track. -/
theorem resume_no_resubmission_witness :
    (∀ p u, Event.write p u ∈ [Event.save, Event.save, Event.write "pl" ["spotify:1"], Event.save] →
      ∀ x ∈ u, x ∉ (⟨["spotify:0"], 1⟩ : CheckpointData).addedUris) ∧
    (∃ k, k ≤ [(⟨1, 0, 0⟩ : AddResult)].length ∧
      (⟨"pl", "name", 2, 2, 0, 0, 2, 0, 0, []⟩ : TransferResult).added_tracks =
        (⟨["spotify:0"], 1⟩ : CheckpointData).addedUris.length +
          (([(⟨1, 0, 0⟩ : AddResult)].take k).map AddResult.added).sum) :=
  resume_no_resubmission asciiTable defaultMatcherConfig "strict"
    ⟨fun _ => [sampleTrack "x" [], sampleTrack "y" []],
     fun _ => Except.ok [sampleCand "spotify:1" 1 "isrc_exact"],
     fun n => ⟨"pl", n, "own", true, 0⟩, [WriteOutcome.ok ⟨1, 0, 0⟩], 100, 3⟩
    sampleSource ⟨["spotify:0"], 1⟩ ⟨"pl", "name", 2, 2, 0, 0, 2, 0, 0, []⟩
    [Event.save, Event.save, Event.write "pl" ["spotify:1"], Event.save]
    [⟨1, 0, 0⟩] rfl (by decide)

/-! ## Claim C4 — dry-run frame conditions -/

/-- Under dry-run the batch loop emits no events at all. -/
theorem runBatches_dry_events (m : Nat) (pid : String) :
    ∀ (bs : List (Nat × List String)) (script : List WriteOutcome),
      (runBatches m pid true bs script).2.2.2.2.1 = []
  | [], _ => rfl
  | (bi, buris) :: rest, script => by
    simp only [runBatches, processBatch, if_pos]
    simp [runBatches_dry_events m pid rest script]

/-- Under dry-run, the matched-tracks stage emits no events, reports zero
added tracks, and counts matched and not-found results from its input. -/
theorem processMatchedTracks_dry (m : Nat) (tp : Playlist) (uris : List String)
    (mrs : List MatchResult) (cnt : Nat) (tt : Option Nat) (bsz : Nat)
    (script : List WriteOutcome) :
    (processMatchedTracks m tp uris mrs true cnt tt bsz script).2 = [] ∧
    (processMatchedTracks m tp uris mrs true cnt tt bsz script).1.added_tracks = 0 ∧
    (processMatchedTracks m tp uris mrs true cnt tt bsz script).1.matched_tracks =
      (mrs.filter (fun r => r.uri.isSome)).length ∧
    (processMatchedTracks m tp uris mrs true cnt tt bsz script).1.not_found_tracks =
      (mrs.filter (fun r => r.reason == "not_found")).length := by
  refine ⟨?_, rfl, rfl, rfl⟩
  simp [processMatchedTracks, runBatches_dry_events]

/-- The filtered length of a replicated element, kept case. -/
theorem filter_replicate_len_true {α : Type} (n : Nat) (a : α) (p : α → Bool)
    (h : p a = true) : ((List.replicate n a).filter p).length = n := by
  induction n with
  | zero => rfl
  | succ k ih => simp [List.replicate_succ, List.filter_cons, h, ih]

/-- The filtered length of a replicated element, dropped case. -/
theorem filter_replicate_len_false {α : Type} (n : Nat) (a : α) (p : α → Bool)
    (h : p a = false) : ((List.replicate n a).filter p).length = 0 := by
  induction n with
  | zero => rfl
  | succ k ih => simp [List.replicate_succ, List.filter_cons, h, ih]

/-- C4: a dry-run transfer never calls the target provider's
`add_tracks_batch` and never saves a checkpoint (on either path), reports
zero `added_tracks`, and its matched / not-found counts equal those computed
from the per-track match results (on resume, the previously added count is
reported through the synthetic `already_processed` results). -/
theorem dry_run_frame (T : CharTable) (cfg : MatcherConfig) (mode : String)
    (env : PipelineEnv) (sp : Playlist) :
    (transferPlaylist T cfg mode env sp none true =
        Except.ok (startFreshTransfer T cfg mode env sp true) ∧
      (∀ e ∈ (startFreshTransfer T cfg mode env sp true).2,
        e.isWrite = false ∧ e.isSave = false) ∧
      (startFreshTransfer T cfg mode env sp true).1.added_tracks = 0 ∧
      (startFreshTransfer T cfg mode env sp true).1.matched_tracks =
        ((freshMatchLoop T cfg mode env.findCandidates (env.listTracks sp.id)).1.filter
          (fun mr => mr.uri.isSome)).length ∧
      (startFreshTransfer T cfg mode env sp true).1.not_found_tracks =
        ((freshMatchLoop T cfg mode env.findCandidates (env.listTracks sp.id)).1.filter
          (fun mr => mr.reason == "not_found")).length) ∧
    (∀ cp r evs mrs uris,
      resumeFromCheckpoint T cfg mode env sp cp true = Except.ok (r, evs) →
      (∀ e ∈ evs, e.isWrite = false ∧ e.isSave = false) ∧
      r.added_tracks = 0 ∧
      (resumeMatchLoop T cfg mode env.findCandidates cp.addedUris
          ((env.listTracks sp.id).drop cp.trackIndex) = Except.ok (mrs, uris) →
        r.matched_tracks =
          (mrs.filter (fun mr => mr.uri.isSome)).length + cp.addedUris.length ∧
        r.not_found_tracks =
          (mrs.filter (fun mr => mr.reason == "not_found")).length)) := by
  have hfresh := processMatchedTracks_dry env.maxRetries (env.resolveOrCreate sp.name)
    (freshMatchLoop T cfg mode env.findCandidates (env.listTracks sp.id)).2
    (freshMatchLoop T cfg mode env.findCandidates (env.listTracks sp.id)).1
    0 (some (env.listTracks sp.id).length) env.batchSize env.script
  constructor
  · refine ⟨rfl, ?_, ?_, ?_, ?_⟩
    · intro e he
      simp only [startFreshTransfer, if_pos, List.nil_append] at he
      rw [hfresh.1] at he
      exact absurd he (by simp)
    · exact hfresh.2.1
    · exact hfresh.2.2.1
    · exact hfresh.2.2.2
  · intro cp r evs mrs uris hres
    simp only [resumeFromCheckpoint] at hres
    split at hres
    · exact absurd hres (by simp)
    · next looped heq =>
      simp only [Except.ok.injEq] at hres
      have hr := congrArg Prod.fst hres
      have hevs := congrArg Prod.snd hres
      dsimp only at hr hevs
      have hdry := processMatchedTracks_dry env.maxRetries (env.resolveOrCreate sp.name)
        looped.2 (looped.1 ++ List.replicate cp.addedUris.length dummyResult)
        cp.addedUris.length (some (env.listTracks sp.id).length) env.batchSize env.script
      refine ⟨?_, ?_, ?_⟩
      · intro e he
        rw [← hevs, hdry.1] at he
        exact absurd he (by simp)
      · rw [← hr]
        exact hdry.2.1
      · intro hloop
        rw [heq] at hloop
        simp only [Except.ok.injEq] at hloop
        have h1 : looped.1 = mrs := by rw [hloop]
        constructor
        · rw [← hr, hdry.2.2.1, ← h1, List.filter_append, List.length_append,
            filter_replicate_len_true cp.addedUris.length dummyResult _ (by rfl)]
        · rw [← hr, hdry.2.2.2, ← h1, List.filter_append, List.length_append,
            filter_replicate_len_false cp.addedUris.length dummyResult _ (by rfl), Nat.add_zero]

/-- Instance of C4 at concrete inputs, on the resume path: no write or save
events, zero added, counts from the tail results plus the recorded count. -/
theorem dry_run_frame_witness :
    (∀ e ∈ ([] : List Event), e.isWrite = false ∧ e.isSave = false) ∧
    (⟨"pl", "name", 2, 2, 0, 0, 0, 0, 0, []⟩ : TransferResult).added_tracks = 0 ∧
    (resumeMatchLoop asciiTable defaultMatcherConfig "strict"
        (fun _ => Except.ok [sampleCand "spotify:1" 1 "isrc_exact"]) ["spotify:0"]
        ([sampleTrack "x" [], sampleTrack "y" []].drop 1) =
        Except.ok ([⟨some "spotify:1", 1, "isrc_exact"⟩], ["spotify:1"]) →
      (⟨"pl", "name", 2, 2, 0, 0, 0, 0, 0, []⟩ : TransferResult).matched_tracks =
        ([(⟨some "spotify:1", 1, "isrc_exact"⟩ : MatchResult)].filter
          (fun mr => mr.uri.isSome)).length + (["spotify:0"] : List String).length ∧
      (⟨"pl", "name", 2, 2, 0, 0, 0, 0, 0, []⟩ : TransferResult).not_found_tracks =
        ([(⟨some "spotify:1", 1, "isrc_exact"⟩ : MatchResult)].filter
          (fun mr => mr.reason == "not_found")).length) :=
  (dry_run_frame asciiTable defaultMatcherConfig "strict"
    ⟨fun _ => [sampleTrack "x" [], sampleTrack "y" []],
     fun _ => Except.ok [sampleCand "spotify:1" 1 "isrc_exact"],
     fun n => ⟨"pl", n, "own", true, 0⟩, [WriteOutcome.ok ⟨1, 0, 0⟩], 100, 3⟩
    sampleSource).2 ⟨["spotify:0"], 1⟩ ⟨"pl", "name", 2, 2, 0, 0, 0, 0, 0, []⟩ []
    [⟨some "spotify:1", 1, "isrc_exact"⟩] ["spotify:1"] (by decide)

/-! ## Claim C6 — per-track matching errors: fresh vs. resume path -/

/-- C6 (amended): on the fresh-start path every per-track failure of the
candidate lookup is absorbed as a `MatchResult` with reason `"error"` (uri
null, confidence 0) at that track's position, all tracks are processed, and
the transfer always completes; on the resume path there is no such handler —
any per-track failure propagates and aborts the resume with an error. -/
theorem per_track_error_absorption (T : CharTable) (cfg : MatcherConfig) (mode : String)
    (find : Track → Except String (List Candidate)) (ts : List Track) :
    ((freshMatchLoop T cfg mode find ts).1 =
      ts.map (fun t =>
        match find t with
        | Except.error _ => (⟨none, 0, "error"⟩ : MatchResult)
        | Except.ok cands => find_best_match T cfg mode t cands)) ∧
    (∀ (env : PipelineEnv) (sp : Playlist) (dr : Bool),
      ∃ res, transferPlaylist T cfg mode env sp none dr = Except.ok res) ∧
    (∀ (added : List String) (t : Track), t ∈ ts → (∃ e, find t = Except.error e) →
      ∃ msg, resumeMatchLoop T cfg mode find added ts = Except.error msg) := by
  refine ⟨?_, fun env sp dr => ⟨_, rfl⟩, ?_⟩
  · induction ts with
    | nil => rfl
    | cons t ts ih => simp only [freshMatchLoop, List.map_cons, ih]
  · intro added t hmem hfail
    induction ts with
    | nil => exact absurd hmem (by simp)
    | cons t2 ts ih =>
      rcases List.mem_cons.mp hmem with hh | hh
      · obtain ⟨e, he⟩ := hfail
        rw [← hh] at *
        refine ⟨e, ?_⟩
        simp only [resumeMatchLoop, he]
      · cases hf : find t2 with
        | error e2 => exact ⟨e2, by simp only [resumeMatchLoop, hf]⟩
        | ok cands =>
          obtain ⟨msg, hmsg⟩ := ih hh
          refine ⟨msg, ?_⟩
          simp only [resumeMatchLoop, hf, hmsg]

/-- Instance of C6 (amended) at concrete inputs: a failing lookup yields an
`"error"` result on the fresh path and aborts the resume loop. -/
theorem per_track_error_absorption_witness :
    (freshMatchLoop asciiTable defaultMatcherConfig "strict"
        (fun _ => Except.error "boom") [sampleTrack "x" []]).1 =
      [sampleTrack "x" []].map (fun t =>
        match (fun (_ : Track) => (Except.error "boom" : Except String (List Candidate))) t with
        | Except.error _ => (⟨none, 0, "error"⟩ : MatchResult)
        | Except.ok cands => find_best_match asciiTable defaultMatcherConfig "strict" t cands) ∧
    (∃ msg, resumeMatchLoop asciiTable defaultMatcherConfig "strict"
        (fun _ => Except.error "boom") [] [sampleTrack "x" []] = Except.error msg) :=
  ⟨(per_track_error_absorption asciiTable defaultMatcherConfig "strict"
      (fun _ => Except.error "boom") [sampleTrack "x" []]).1,
   (per_track_error_absorption asciiTable defaultMatcherConfig "strict"
      (fun _ => Except.error "boom") [sampleTrack "x" []]).2.2 [] (sampleTrack "x" [])
     (by decide) ⟨"boom", rfl⟩⟩

/-- Counterexample to C6 as frozen: on the resume path a per-track matching
failure is not caught — the whole transfer aborts with the exception instead
of recording an `"error"` match result and continuing. -/
theorem resume_error_aborts_cex :
    transferPlaylist asciiTable defaultMatcherConfig "strict"
      ⟨fun _ => [sampleTrack "x" []], fun _ => Except.error "boom",
       fun n => ⟨"pl", n, "own", true, 0⟩, [], 100, 3⟩
      sampleSource (some ⟨[], 0⟩) false = Except.error "boom" := by decide

/-! ## Claim C10 — idempotence of `normalize_string` -/

/-- Counterexample to C10 as frozen: the underscore-to-space step runs after
the `feat` marker removal, so `"_feat_"` normalizes to `"feat"` whose second
normalization removes the now-exposed standalone `feat` token. -/
theorem normalize_not_idempotent_cex :
    normalize_string asciiTable "_feat_" = "feat" ∧
    normalize_string asciiTable (normalize_string asciiTable "_feat_") = "" ∧
    normalize_string asciiTable (normalize_string asciiTable "_feat_") ≠
      normalize_string asciiTable "_feat_" := by decide

theorem flatMapIdOn {α : Type} (f : α → List α) :
    ∀ (l : List α), (∀ c ∈ l, f c = [c]) → l.flatMap f = l
  | [], _ => rfl
  | c :: rest, h => by
    simp only [List.flatMap_cons, h c (List.mem_cons_self c rest),
      flatMapIdOn f rest (fun d hd => h d (List.mem_cons_of_mem c hd))]
    rfl

theorem mapIdOn {α : Type} (f : α → α) :
    ∀ (l : List α), (∀ c ∈ l, f c = c) → l.map f = l
  | [], _ => rfl
  | c :: rest, h => by
    simp only [List.map_cons, h c (List.mem_cons_self c rest),
      mapIdOn f rest (fun d hd => h d (List.mem_cons_of_mem c hd))]

/-- Character provenance through the feat-marker pass: output characters are
input characters or inserted spaces. -/
theorem featSubAux_mem (T : CharTable) :
    ∀ (fuel : Nat) (pw : Bool) (l : List Char) (c : Char),
      c ∈ featSubAux T fuel pw l → c ∈ l ∨ c = ' '
  | 0, _, l, c, h => Or.inl h
  | _ + 1, _, [], c, h => absurd h (by simp [featSubAux])
  | fuel + 1, pw, c0 :: rest, c, h => by
    simp only [featSubAux] at h
    repeat' split at h
    all_goals
      first
      | (simp only [List.mem_singleton] at h; exact Or.inr h)
      | (rcases List.mem_cons.mp h with h | h
         · first
           | exact Or.inr h
           | (left; simp only [List.mem_cons]; tauto)
         · rcases featSubAux_mem T fuel _ _ c h with h2 | h2
           · left
             simp only [List.mem_cons] at h2 ⊢
             tauto
           · exact Or.inr h2)

theorem dropWhileMem {p : Char → Bool} : ∀ {l : List Char} {c : Char},
    c ∈ l.dropWhile p → c ∈ l
  | [], _, h => h
  | a :: rest, c, h => by
    rw [List.dropWhile_cons] at h
    split at h
    · exact List.mem_cons_of_mem a (dropWhileMem h)
    · exact h

/-- Characters after a `tryParens` match come from the original list. -/
theorem tryParens_subset {T : CharTable} {l rest2 : List Char}
    (h : tryParens T l = some rest2) : ∀ c ∈ rest2, c ∈ l := by
  intro c hc
  unfold tryParens at h
  split at h
  · next c0 rest0 heq =>
    split at h
    · split at h
      · next d rest1 heq2 =>
        split at h
        · simp only [Option.some.injEq] at h
          rw [← h] at hc
          have h1 : c ∈ rest1 := dropWhileMem hc
          have h2 : c ∈ rest0 := by
            have hs : d :: rest1 = rest0.dropWhile (fun d => !isCloseBr d) := heq2.symm
            exact dropWhileMem (l := rest0) (by rw [← hs]; exact List.mem_cons_of_mem d h1)
          have h3 : c ∈ l.dropWhile T.isSpace := by
            rw [heq]
            exact List.mem_cons_of_mem c0 h2
          exact dropWhileMem h3
        · exact absurd h (by simp)
      · exact absurd h (by simp)
    · exact absurd h (by simp)
  · exact absurd h (by simp)

/-- Character provenance through one bracket-content pass. -/
theorem parensSub_mem (T : CharTable) :
    ∀ (fuel : Nat) (l : List Char) (c : Char),
      c ∈ parensSub T fuel l → c ∈ l ∨ c = ' '
  | 0, l, c, h => Or.inl h
  | _ + 1, [], c, h => absurd h (by simp [parensSub])
  | fuel + 1, c0 :: rest, c, h => by
    simp only [parensSub] at h
    split at h
    · next rest2 heq =>
      rcases List.mem_cons.mp h with h | h
      · exact Or.inr h
      · rcases parensSub_mem T fuel rest2 c h with h2 | h2
        · exact Or.inl (tryParens_subset heq c h2)
        · exact Or.inr h2
    · rcases List.mem_cons.mp h with h | h
      · exact Or.inl (by rw [h]; exact List.mem_cons_self c0 rest)
      · rcases parensSub_mem T fuel rest c h with h2 | h2
        · exact Or.inl (List.mem_cons_of_mem c0 h2)
        · exact Or.inr h2

/-- Character provenance through the bracket-content fixpoint loop. -/
theorem parensLoop_mem (T : CharTable) :
    ∀ (fuel : Nat) (l : List Char) (c : Char),
      c ∈ parensLoop T fuel l → c ∈ l ∨ c = ' '
  | 0, l, c, h => Or.inl h
  | fuel + 1, l, c, h => by
    simp only [parensLoop] at h
    split at h
    · exact Or.inl h
    · rcases parensLoop_mem T fuel (parensSub T l.length l) c h with h2 | h2
      · exact parensSub_mem T l.length l c h2
      · exact Or.inr h2

/-- Character provenance through whitespace collapsing: spaces, or non-space
input characters. -/
theorem squeezeSp_mem (T : CharTable) :
    ∀ (l : List Char) (c : Char),
      c ∈ squeezeSp T l → c = ' ' ∨ (c ∈ l ∧ T.isSpace c = false)
  | [], c, h => absurd h (by simp [squeezeSp])
  | [c0], c, h => by
    simp only [squeezeSp, List.mem_singleton] at h
    split at h
    · exact Or.inl h
    · next hsp =>
      exact Or.inr ⟨by rw [h]; exact List.mem_cons_self c0 [], by rw [h]; simpa using hsp⟩
  | c0 :: d :: rest, c, h => by
    simp only [squeezeSp] at h
    split at h
    · rcases squeezeSp_mem T (d :: rest) c h with h2 | ⟨h2, h3⟩
      · exact Or.inl h2
      · exact Or.inr ⟨List.mem_cons_of_mem c0 h2, h3⟩
    · rcases List.mem_cons.mp h with h | h
      · split at h
        · exact Or.inl h
        · next hsp =>
          exact Or.inr ⟨by rw [h]; exact List.mem_cons_self c0 _, by rw [h]; simpa using hsp⟩
      · rcases squeezeSp_mem T (d :: rest) c h with h2 | ⟨h2, h3⟩
        · exact Or.inl h2
        · exact Or.inr ⟨List.mem_cons_of_mem c0 h2, h3⟩

/-- Character provenance through trailing-space stripping. -/
theorem rstripSp_mem (T : CharTable) : ∀ {l : List Char} {c : Char},
    c ∈ rstripSp T l → c ∈ l
  | [], _, h => h
  | c0 :: rest, c, h => by
    simp only [rstripSp] at h
    split at h
    · exact absurd h (by simp)
    · rcases List.mem_cons.mp h with h | h
      · exact (by rw [h]; exact List.mem_cons_self c0 rest)
      · exact List.mem_cons_of_mem c0 (rstripSp_mem T h)

/-- Every character of a normalized string is a space, or an alphanumeric,
non-space, non-structural character that the diacritic, lowering and
decomposition tables leave fixed (by `Lawful`, since it is a lowercase image
or one of the inserted `and` letters). -/
theorem normalizeChars_mem (T : CharTable) (hT : T.Lawful) (l : List Char) :
    ∀ c ∈ normalizeChars T l, c = ' ' ∨
      (T.isAlnum c = true ∧ T.isSpace c = false ∧ c ≠ '_' ∧ isOpenBr c = false ∧
       isCloseBr c = false ∧ c ≠ '&' ∧
       T.decompose c = [c] ∧ T.combining c = false ∧ T.lower c = [c]) := by
  intro c hc
  by_cases hspc : c = ' '
  · exact Or.inl hspc
  right
  simp only [normalizeChars] at hc
  have h1 := dropWhileMem (rstripSp_mem T hc)
  rcases squeezeSp_mem T _ c h1 with h2 | ⟨h2, hspF⟩
  · exact absurd h2 hspc
  unfold underscoreToSpace at h2
  obtain ⟨b7, hb7, hb7e⟩ := List.mem_map.mp h2
  have hc7 : c ∈ nonWordToSpace T (bracketsToSpace (parensLoop T
      ((featSub T (ampExpand (lowerChars T (stripDiacritics T l)))).length + 1)
      (featSub T (ampExpand (lowerChars T (stripDiacritics T l)))))) ∧ c ≠ '_' := by
    by_cases h : b7 = '_'
    · rw [if_pos h] at hb7e
      exact absurd hb7e.symm hspc
    · rw [if_neg h] at hb7e
      rw [← hb7e]
      exact ⟨hb7, h⟩
  obtain ⟨hc7m, hcu⟩ := hc7
  unfold nonWordToSpace at hc7m
  obtain ⟨b6, hb6, hb6e⟩ := List.mem_map.mp hc7m
  have hc6 : c ∈ bracketsToSpace (parensLoop T
      ((featSub T (ampExpand (lowerChars T (stripDiacritics T l)))).length + 1)
      (featSub T (ampExpand (lowerChars T (stripDiacritics T l))))) ∧
      (isWordC T c || T.isSpace c) = true := by
    split at hb6e
    · next hw => rw [← hb6e]; exact ⟨hb6, hw⟩
    · exact absurd hb6e.symm hspc
  obtain ⟨hc6m, hword⟩ := hc6
  have halnum : T.isAlnum c = true := by
    rcases Bool.or_eq_true_iff.mp hword with hw | hw
    · rcases Bool.or_eq_true_iff.mp hw with ha | ha
      · exact ha
      · exact absurd (by simpa using ha) hcu
    · rw [hw] at hspF
      exact absurd hspF (by simp)
  unfold bracketsToSpace at hc6m
  obtain ⟨b5, hb5, hb5e⟩ := List.mem_map.mp hc6m
  have hc5 : c ∈ parensLoop T
      ((featSub T (ampExpand (lowerChars T (stripDiacritics T l)))).length + 1)
      (featSub T (ampExpand (lowerChars T (stripDiacritics T l)))) ∧
      isOpenBr c = false ∧ isCloseBr c = false := by
    split at hb5e
    · exact absurd hb5e.symm hspc
    · next hbr =>
      rw [← hb5e]
      have hbr2 := hbr
      simp only [Bool.or_eq_true, not_or, Bool.not_eq_true] at hbr2
      exact ⟨hb5, hbr2.1, hbr2.2⟩
  obtain ⟨hc5m, hopen, hclose⟩ := hc5
  have hc4 : c ∈ featSub T (ampExpand (lowerChars T (stripDiacritics T l))) := by
    rcases parensLoop_mem T _ _ c hc5m with h | h
    · exact h
    · exact absurd h hspc
  have hc3 : c ∈ ampExpand (lowerChars T (stripDiacritics T l)) := by
    rcases featSubAux_mem T _ _ _ c hc4 with h | h
    · exact h
    · exact absurd h hspc
  unfold ampExpand at hc3
  obtain ⟨b3, hb3, hb3e⟩ := List.mem_flatMap.mp hc3
  have hfin : c ≠ '&' ∧ T.decompose c = [c] ∧ T.combining c = false ∧ T.lower c = [c] := by
    split at hb3e
    · have hand : c = 'a' ∨ c = 'n' ∨ c = 'd' := by
        simp only [List.mem_cons] at hb3e
        rcases hb3e with h | h | h | h | h | h
        · exact absurd h hspc
        · exact Or.inl h
        · exact Or.inr (Or.inl h)
        · exact Or.inr (Or.inr h)
        · exact absurd h hspc
        · exact absurd h (by simp)
      obtain ⟨hd, hcb, hlw⟩ := hT.lit_stable c hand
      refine ⟨?_, hd, hcb, hlw⟩
      rcases hand with h | h | h <;> rw [h] <;> decide
    · next hamp =>
      simp only [List.mem_singleton] at hb3e
      rw [← hb3e] at hamp hb3
      unfold lowerChars at hb3
      obtain ⟨b1, _, hcl⟩ := List.mem_flatMap.mp hb3
      obtain ⟨hd, hcb⟩ := hT.lower_alnum_stable b1 c hcl halnum
      exact ⟨hamp, hd, hcb, hT.lower_fixed b1 c hcl⟩
  exact ⟨halnum, hspF, hcu, hopen, hclose, hfin.1, hfin.2.1, hfin.2.2.1, hfin.2.2.2⟩

/-- The head of a collapsed list starting with a non-space character. -/
theorem squeezeSp_head_not_space (T : CharTable) (d : Char) (rest : List Char)
    (hd : T.isSpace d = false) : (squeezeSp T (d :: rest)).head? = some d := by
  cases rest with
  | nil => simp [squeezeSp, hd]
  | cons e rest2 => simp [squeezeSp, hd]

/-- The two-character unfolding of `squeezeSp`. -/
theorem squeezeSp_cons_cons (T : CharTable) (c d : Char) (rest : List Char) :
    squeezeSp T (c :: d :: rest) =
      if (T.isSpace c && T.isSpace d) = true then squeezeSp T (d :: rest)
      else (if T.isSpace c = true then ' ' else c) :: squeezeSp T (d :: rest) := rfl

/-- Whitespace collapsing leaves no two adjacent space characters. -/
theorem squeezeSp_chain (T : CharTable) (hsp : T.isSpace ' ' = true) :
    ∀ (l : List Char),
      List.Chain' (fun a b => ¬(T.isSpace a = true ∧ T.isSpace b = true)) (squeezeSp T l)
  | [] => List.chain'_nil
  | [c] => by
    simp only [squeezeSp]
    split
    · exact List.chain'_singleton _
    · exact List.chain'_singleton _
  | c :: d :: rest => by
    rw [squeezeSp_cons_cons]
    split
    · exact squeezeSp_chain T hsp (d :: rest)
    · next hnot =>
      rw [List.chain'_cons']
      refine ⟨?_, squeezeSp_chain T hsp (d :: rest)⟩
      intro b hb
      by_cases hc : T.isSpace c = true
      · have hdn : T.isSpace d = false := by
          cases hdd : T.isSpace d
          · rfl
          · exact absurd (show (T.isSpace c && T.isSpace d) = true by rw [hc, hdd]; rfl) hnot
        rw [squeezeSp_head_not_space T d rest hdn] at hb
        simp only [Option.mem_def, Option.some.injEq] at hb
        rw [← hb, if_pos hc]
        intro hcontra
        rw [hdn] at hcontra
        exact absurd hcontra.2 (by simp)
      · rw [if_neg hc]
        intro hcontra
        exact hc hcontra.1

/-- `dropWhile` keeps chains of pairwise constraints. -/
theorem dropWhile_chain {R : Char → Char → Prop} {p : Char → Bool} :
    ∀ {l : List Char}, List.Chain' R l → List.Chain' R (l.dropWhile p)
  | [], h => h
  | c :: rest, h => by
    rw [List.dropWhile_cons]
    split
    · exact dropWhile_chain (List.chain'_cons'.mp h).2
    · exact h

/-- The head surviving `rstripSp` is the original head. -/
theorem rstripSp_head (T : CharTable) :
    ∀ {l : List Char} {b : Char}, (rstripSp T l).head? = some b → l.head? = some b
  | [], b, h => h
  | c :: rest, b, h => by
    simp only [rstripSp] at h
    split at h
    · exact absurd h (by simp)
    · simpa using h

/-- `rstripSp` keeps chains of pairwise constraints. -/
theorem rstripSp_chain (T : CharTable) {R : Char → Char → Prop} :
    ∀ {l : List Char}, List.Chain' R l → List.Chain' R (rstripSp T l)
  | [], h => h
  | c :: rest, h => by
    simp only [rstripSp]
    split
    · exact List.chain'_nil
    · rw [List.chain'_cons']
      refine ⟨?_, rstripSp_chain T (List.chain'_cons'.mp h).2⟩
      intro b hb
      have hb2 : rest.head? = some b := rstripSp_head T (by simpa using hb)
      exact (List.chain'_cons'.mp h).1 b (by simp [hb2])

/-- The last character surviving `rstripSp` is not a space. -/
theorem rstripSp_last (T : CharTable) :
    ∀ {l : List Char} {b : Char}, (rstripSp T l).getLast? = some b → T.isSpace b = false
  | [], b, h => absurd h (by simp [rstripSp])
  | c :: rest, b, h => by
    simp only [rstripSp] at h
    split at h
    · exact absurd h (by simp)
    · next hcond =>
      cases hr : rstripSp T rest with
      | nil =>
        rw [hr] at h hcond
        simp only [List.getLast?_singleton, Option.some.injEq] at h
        rw [← h]
        cases hc : T.isSpace c with
        | false => rfl
        | true =>
          refine absurd ?_ hcond
          rw [hc]
          rfl
      | cons x xs =>
        rw [hr] at h
        rw [List.getLast?_cons_cons] at h
        exact rstripSp_last T (by rw [hr]; exact h)

/-- The head after dropping leading spaces fails the dropped predicate. -/
theorem dropWhile_head_false {p : Char → Bool} :
    ∀ {l : List Char} {b : Char}, (l.dropWhile p).head? = some b → p b = false
  | [], b, h => absurd h (by simp)
  | c :: rest, b, h => by
    rw [List.dropWhile_cons] at h
    split at h
    · exact dropWhile_head_false h
    · next hp =>
      simp only [List.head?_cons, Option.some.injEq] at h
      rw [← h]
      simpa using hp

/-- Collapsing whitespace is the identity on lists with no adjacent space
characters in which every space character is the literal space. -/
theorem squeezeSp_id (T : CharTable) :
    ∀ (l : List Char),
      List.Chain' (fun a b => ¬(T.isSpace a = true ∧ T.isSpace b = true)) l →
      (∀ c ∈ l, T.isSpace c = true → c = ' ') → squeezeSp T l = l
  | [], _, _ => rfl
  | [c], _, hsp => by
    simp only [squeezeSp]
    split
    · next hc => rw [hsp c (List.mem_cons_self c []) hc]
    · rfl
  | c :: d :: rest, hch, hsp => by
    have hpair := (List.chain'_cons.mp hch).1
    rw [squeezeSp_cons_cons]
    rw [if_neg (by intro hand; exact hpair ⟨Bool.and_elim_left hand, Bool.and_elim_right hand⟩)]
    have ih := squeezeSp_id T (d :: rest) (List.chain'_cons'.mp hch).2
      (fun e he hsp2 => hsp e (List.mem_cons_of_mem c he) hsp2)
    rw [ih]
    split
    · next hc => rw [hsp c (List.mem_cons_self c _) hc]
    · rfl

/-- Dropping leading spaces is the identity when the head is not a space. -/
theorem dropWhile_id {p : Char → Bool} :
    ∀ (l : List Char), (∀ b, l.head? = some b → p b = false) → l.dropWhile p = l
  | [], _ => rfl
  | c :: rest, h => by
    rw [List.dropWhile_cons, if_neg (by simp [h c rfl])]

/-- Stripping trailing spaces is the identity when the last character is not
a space. -/
theorem rstripSp_id (T : CharTable) :
    ∀ (l : List Char), (∀ b, l.getLast? = some b → T.isSpace b = false) →
      rstripSp T l = l
  | [], _ => rfl
  | [c], h => by
    simp only [rstripSp]
    rw [if_neg (by simp [h c (by rfl)])]
  | c :: d :: rest, h => by
    have ih := rstripSp_id T (d :: rest) (fun b hb => h b (by rw [List.getLast?_cons_cons]; exact hb))
    simp only [rstripSp] at ih ⊢
    simp only [ih]
    rw [if_neg (by simp)]

/-- `tryParens` never matches when the list has no opening bracket. -/
theorem tryParens_none (T : CharTable) (l : List Char)
    (h : ∀ c ∈ l, isOpenBr c = false) : tryParens T l = none := by
  unfold tryParens
  split
  · next c0 rest0 heq =>
    rw [if_neg]
    intro hop
    have hc0 : c0 ∈ l := dropWhileMem (l := l) (by rw [heq]; exact List.mem_cons_self c0 rest0)
    rw [h c0 hc0] at hop
    exact absurd hop (by simp)
  · rfl

/-- One bracket-content pass is the identity without opening brackets. -/
theorem parensSub_no_open (T : CharTable) :
    ∀ (fuel : Nat) (l : List Char), (∀ c ∈ l, isOpenBr c = false) →
      parensSub T fuel l = l
  | 0, l, _ => rfl
  | _ + 1, [], _ => rfl
  | fuel + 1, c :: rest, h => by
    simp only [parensSub]
    rw [tryParens_none T (c :: rest) h]
    rw [parensSub_no_open T fuel rest (fun d hd => h d (List.mem_cons_of_mem c hd))]

/-- The bracket-content fixpoint loop is the identity without opening
brackets. -/
theorem parensLoop_id (T : CharTable) (fuel : Nat) (l : List Char)
    (h : ∀ c ∈ l, isOpenBr c = false) : parensLoop T fuel l = l := by
  cases fuel with
  | zero => rfl
  | succ n =>
    simp only [parensLoop]
    rw [parensSub_no_open T l.length l h, if_pos rfl]

set_option maxHeartbeats 1000000 in
/-- A normalized character list has no two adjacent space characters. -/
theorem normalizeChars_chain (T : CharTable) (hsp : T.isSpace ' ' = true)
    (l : List Char) :
    List.Chain' (fun a b => ¬(T.isSpace a = true ∧ T.isSpace b = true))
      (normalizeChars T l) := by
  simp only [normalizeChars]
  apply rstripSp_chain
  apply dropWhile_chain
  apply squeezeSp_chain T hsp

/-- A normalized character list never starts with a space character. -/
theorem normalizeChars_head (T : CharTable) (l : List Char) :
    ∀ b, (normalizeChars T l).head? = some b → T.isSpace b = false := by
  intro b hb
  simp only [normalizeChars] at hb
  exact dropWhile_head_false (rstripSp_head T hb)

/-- A normalized character list never ends with a space character. -/
theorem normalizeChars_last (T : CharTable) (l : List Char) :
    ∀ b, (normalizeChars T l).getLast? = some b → T.isSpace b = false := by
  intro b hb
  simp only [normalizeChars] at hb
  exact rstripSp_last T hb

/-- The ascii table satisfies every `Lawful` fact (decomposition and lowering
are the identity, nothing is combining, and the space class is ASCII). -/
theorem asciiTable_lawful : asciiTable.Lawful :=
  ⟨rfl, rfl, rfl, by decide, fun _ _ _ _ => rfl, fun _ _ _ => rfl,
   fun _ _ _ _ => ⟨rfl, rfl⟩, fun c h => by rcases h with h | h | h <;> rw [h] <;> exact ⟨rfl, rfl, rfl⟩⟩

/-- Core fixpoint lemma: a character list that satisfies the normalized-shape
invariants (character classes, no adjacent spaces, no space at either end)
and is unchanged by the `feat`/`ft.` substitution pass is a fixed point of
`normalizeChars`. -/
theorem normalizeChars_fix (T : CharTable) (hT : T.Lawful) (m : List Char)
    (hmem : ∀ c ∈ m, c = ' ' ∨
      (T.isAlnum c = true ∧ T.isSpace c = false ∧ c ≠ '_' ∧ isOpenBr c = false ∧
       isCloseBr c = false ∧ c ≠ '&' ∧
       T.decompose c = [c] ∧ T.combining c = false ∧ T.lower c = [c]))
    (hch : List.Chain' (fun a b => ¬(T.isSpace a = true ∧ T.isSpace b = true)) m)
    (hhead : ∀ b, m.head? = some b → T.isSpace b = false)
    (hlast : ∀ b, m.getLast? = some b → T.isSpace b = false)
    (hfeat : featSub T m = m) : normalizeChars T m = m := by
  have h1 : stripDiacritics T m = m := by
    unfold stripDiacritics
    rw [flatMapIdOn T.decompose m (fun c hc => by
      rcases hmem c hc with h | h
      · rw [h]; exact hT.space_decompose
      · exact h.2.2.2.2.2.2.1)]
    exact List.filter_eq_self.mpr (fun c hc => by
      rcases hmem c hc with h | h
      · rw [h, hT.space_combining]; rfl
      · rw [h.2.2.2.2.2.2.2.1]; rfl)
  have h2 : lowerChars T m = m := by
    unfold lowerChars
    exact flatMapIdOn T.lower m (fun c hc => by
      rcases hmem c hc with h | h
      · rw [h]; exact hT.space_lower
      · exact h.2.2.2.2.2.2.2.2)
  have h3 : ampExpand m = m := by
    unfold ampExpand
    exact flatMapIdOn _ m (fun c hc => by
      rcases hmem c hc with h | h
      · rw [h]; decide
      · rw [if_neg h.2.2.2.2.2.1])
  have h5 : parensLoop T (m.length + 1) m = m :=
    parensLoop_id T (m.length + 1) m (fun c hc => by
      rcases hmem c hc with h | h
      · rw [h]; decide
      · exact h.2.2.2.1)
  have h6 : bracketsToSpace m = m := by
    unfold bracketsToSpace
    exact mapIdOn _ m (fun c hc => by
      rcases hmem c hc with h | h
      · rw [h]; decide
      · rw [h.2.2.2.1, h.2.2.2.2.1]; rfl)
  have h7 : nonWordToSpace T m = m := by
    unfold nonWordToSpace
    exact mapIdOn _ m (fun c hc => by
      rcases hmem c hc with h | h
      · rw [h, if_pos (by rw [hT.space_isSpace]; simp)]
      · rw [if_pos (by unfold isWordC; rw [h.1]; simp)])
  have h8 : underscoreToSpace m = m := by
    unfold underscoreToSpace
    exact mapIdOn _ m (fun c hc => by
      rcases hmem c hc with h | h
      · rw [h]; decide
      · rw [if_neg h.2.2.1])
  have h9 : squeezeSp T m = m :=
    squeezeSp_id T m hch (fun c hc hspc => by
      rcases hmem c hc with h | h
      · exact h
      · rw [h.2.1] at hspc; exact absurd hspc (by simp))
  have h10 : m.dropWhile T.isSpace = m := dropWhile_id m hhead
  have h11 : rstripSp T m = m := rstripSp_id T m hlast
  simp only [normalizeChars]
  rw [h1, h2, h3, hfeat, h5, h6, h7, h8, h9, h10, h11]

set_option maxHeartbeats 1000000 in
/-- C10 (amended): `normalize_string` is idempotent on every input whose
normalized form is unchanged by the `feat`/`ft.` marker-substitution pass,
for any table satisfying the `Lawful` facts of the real Unicode tables.  The
restriction is necessary: the underscore-to-space step runs after marker
removal, so `"_feat_"` normalizes to `"feat"`, which a second normalization
maps to `""` (see the counterexample above). -/
theorem normalize_idempotent_of_feat_free (T : CharTable) (hT : T.Lawful) (s : String)
    (hfeat : featSub T (normalizeChars T s.data) = normalizeChars T s.data) :
    normalize_string T (normalize_string T s) = normalize_string T s := by
  have hfix := normalizeChars_fix T hT (normalizeChars T s.data)
    (normalizeChars_mem T hT s.data)
    (normalizeChars_chain T hT.space_isSpace s.data)
    (normalizeChars_head T s.data)
    (normalizeChars_last T s.data) hfeat
  show (⟨normalizeChars T (normalizeChars T s.data)⟩ : String) = ⟨normalizeChars T s.data⟩
  rw [hfix]

/-- Witness: the ascii table is `Lawful`, the normalized form of
`"hello world feat"` is a fixpoint of the marker pass (the marker is
word-internal only on re-entry after trimming), and idempotence holds there
concretely. -/
theorem normalize_idempotent_of_feat_free_witness :
    asciiTable.Lawful ∧
    featSub asciiTable (normalizeChars asciiTable "Hello  (Live) World".data) =
      normalizeChars asciiTable "Hello  (Live) World".data ∧
    normalize_string asciiTable (normalize_string asciiTable "Hello  (Live) World") =
      normalize_string asciiTable "Hello  (Live) World" :=
  ⟨asciiTable_lawful, by decide,
   normalize_idempotent_of_feat_free asciiTable asciiTable_lawful "Hello  (Live) World" (by decide)⟩
